import Mathlib

/-!
Verification of the response parser and retry wrapper of `src/app.py`
(the phi-gen problem-generation web application).

The embedding works on `List Char`.  Python's regex operations are
translated into executable scanning functions:

* `re.split(r"###\s*Problem\s*\d+", txt, flags=IGNORECASE)` becomes
  `splitDelim` (char-by-char scan, leftmost non-overlapping matches);
* `re.split(r"(Statement|Solution)\s*:\s*", b, flags=DOTALL|IGNORECASE)`
  becomes `splitLabels`, returning the leading segment and the list of
  (captured key, following segment) pairs — exactly the slices the Python
  loop `for i in range(1, len(parts), 2)` visits;
* `re.search(r"(Solution)\s*:\s*", v)` start position becomes `findSolStart`;
* `re.search(r"Solution\s*:\s*(.*)$", b, DOTALL)` group capture becomes
  `solAfter`;
* `re.sub(r"###$", "", s)` becomes `pySubHashEnd`;
* `re.sub(r"^Problem\s*\d+\s*", "", s)` (case sensitive) becomes
  `subLeadingProblem`;
* `str.strip` / `str.splitlines` / `str.lower` become `pyStrip`,
  `pySplitlines`, `pyLower`.

Greedy `\s*` / `\d+` sub-patterns are always followed (in the patterns
above) by a literal that no whitespace/digit character can start, so the
backtracking-free greedy scan used here is exactly the regex semantics.

All recursions are structural (the two splitters use an explicit fuel
argument bounded by the input length), so every definition evaluates by
kernel reduction (`decide` / `rfl`).
-/

/-- Python whitespace (`str.isspace`, also the `\s` class) for the ASCII /
Latin-1 range that the application's data can contain. -/
def isPySpace (c : Char) : Bool :=
  c == ' ' || c == '\t' || c == '\n' || c == '\r' || c == '\x0b' || c == '\x0c' ||
  c == '\x1c' || c == '\x1d' || c == '\x1e' || c == '\x1f' || c == '\x85'

/-- Line boundaries recognised by Python's `str.splitlines`. -/
def isLineBreak (c : Char) : Bool :=
  c == '\n' || c == '\r' || c == '\x0b' || c == '\x0c' ||
  c == '\x1c' || c == '\x1d' || c == '\x1e' || c == '\x85' ||
  c == '\u2028' || c == '\u2029'

/-- ASCII lower-casing, as used by `str.lower` and `re.IGNORECASE` on the
characters relevant here. -/
def pyLower (c : Char) : Char :=
  if 65 ≤ c.toNat ∧ c.toNat ≤ 90 then Char.ofNat (c.toNat + 32) else c

/-- Python `str.strip()`. -/
def pyStrip (s : List Char) : List Char :=
  ((s.dropWhile isPySpace).reverse.dropWhile isPySpace).reverse

/-- Greedy `\s*`. -/
def dropSpaces (s : List Char) : List Char := s.dropWhile isPySpace

/-- Match a literal pattern case-sensitively at the head, returning the rest. -/
def matchCS : List Char → List Char → Option (List Char)
  | [], s => some s
  | _ :: _, [] => none
  | p :: ps, c :: cs => if c = p then matchCS ps cs else none

/-- Match a literal pattern case-insensitively at the head, returning the rest. -/
def matchCI : List Char → List Char → Option (List Char)
  | [], s => some s
  | _ :: _, [] => none
  | p :: ps, c :: cs => if pyLower c = pyLower p then matchCI ps cs else none

/-- `p` matches (case-insensitively) at no position of `s`. -/
def noOccCI (p : List Char) : List Char → Bool
  | [] => true
  | c :: r => (matchCI p (c :: r)).isNone && noOccCI p r

/-- Boolean prefix test. -/
def listStartsWith : List Char → List Char → Bool
  | [], _ => true
  | _ :: _, [] => false
  | p :: ps, c :: cs => p == c && listStartsWith ps cs

def hashPat : List Char := ['#', '#', '#']

def problemCIPat : List Char := ['p', 'r', 'o', 'b', 'l', 'e', 'm']

/-- One attempted match of `###\s*Problem\s*\d+` (IGNORECASE) at the head of
`s`; on success returns the text after the match. -/
def matchProblemDelim (s : List Char) : Option (List Char) :=
  match matchCI hashPat s with
  | none => none
  | some r1 =>
    match matchCI problemCIPat (dropSpaces r1) with
    | none => none
    | some r2 =>
      match dropSpaces r2 with
      | [] => none
      | c :: r3 => if c.isDigit then some ((c :: r3).dropWhile Char.isDigit) else none

/-- Scanner for `re.split` on the problem delimiter.  `fuel` only bounds the
recursion; `splitDelim` supplies `s.length`, which always suffices because a
successful match consumes at least one character. -/
def splitDelimAuxF : Nat → List Char → List Char → List (List Char)
  | 0, s, acc => [acc.reverse ++ s]
  | fuel + 1, s, acc =>
    match s with
    | [] => [acc.reverse]
    | c :: rest =>
      match matchProblemDelim (c :: rest) with
      | some r => acc.reverse :: splitDelimAuxF fuel r []
      | none => splitDelimAuxF fuel rest (c :: acc)

/-- `re.split(r"###\s*Problem\s*\d+", txt, flags=re.IGNORECASE)` (line 111). -/
def splitDelim (s : List Char) : List (List Char) :=
  splitDelimAuxF s.length s []

inductive LKey where
  | stmt
  | sol
deriving DecidableEq

def stmtKW : List Char := ['s', 't', 'a', 't', 'e', 'm', 'e', 'n', 't']

def solKW : List Char := ['s', 'o', 'l', 'u', 't', 'i', 'o', 'n']

/-- The `\s*:\s*` tail of the label pattern. -/
def expectColon (r : List Char) : Option (List Char) :=
  match dropSpaces r with
  | ':' :: r2 => some (dropSpaces r2)
  | _ => none

/-- Match `Statement\s*:\s*` (IGNORECASE) at the head. -/
def matchStmtAt (s : List Char) : Option (List Char) :=
  match matchCI stmtKW s with
  | some r => expectColon r
  | none => none

/-- Match `Solution\s*:\s*` (IGNORECASE) at the head. -/
def matchSolAt (s : List Char) : Option (List Char) :=
  match matchCI solKW s with
  | some r => expectColon r
  | none => none

/-- One attempted match of `(Statement|Solution)\s*:\s*`, with the
alternation order of the source pattern. -/
def matchLabel (s : List Char) : Option (LKey × List Char) :=
  match matchStmtAt s with
  | some r => some (.stmt, r)
  | none =>
    match matchSolAt s with
    | some r => some (.sol, r)
    | none => none

/-- Scanner for `re.split` with the captured label group: returns the leading
segment and the (key, following segment) pairs. -/
def splitLabelsAuxF : Nat → List Char → List Char → List Char × List (LKey × List Char)
  | 0, s, acc => (acc.reverse ++ s, [])
  | fuel + 1, s, acc =>
    match s with
    | [] => (acc.reverse, [])
    | c :: rest =>
      match matchLabel (c :: rest) with
      | some (k, r) =>
        let tailRes := splitLabelsAuxF fuel r []
        (acc.reverse, (k, tailRes.1) :: tailRes.2)
      | none => splitLabelsAuxF fuel rest (c :: acc)

/-- `re.split(r"(Statement|Solution)\s*:\s*", b, flags=DOTALL|IGNORECASE)`
(line 119), as the head segment plus key/segment pairs. -/
def splitLabels (b : List Char) : List Char × List (LKey × List Char) :=
  splitLabelsAuxF b.length b []

/-- Start index of the leftmost `Solution\s*:\s*` match (`re.search`, lines
129 and 137). -/
def findSolStart : List Char → Option Nat
  | [] => none
  | c :: rest =>
    if (matchSolAt (c :: rest)).isSome then some 0
    else (findSolStart rest).map (· + 1)

/-- Start index of the leftmost `Statement\s*:\s*` match (used to state
"contains a Statement label"). -/
def findStmtStart : List Char → Option Nat
  | [] => none
  | c :: rest =>
    if (matchStmtAt (c :: rest)).isSome then some 0
    else (findStmtStart rest).map (· + 1)

/-- Capture of `re.search(r"Solution\s*:\s*(.*)$", b, DOTALL)` (line 143):
the text after the leftmost `Solution\s*:\s*` match. -/
def solAfter : List Char → Option (List Char)
  | [] => none
  | c :: rest =>
    match matchSolAt (c :: rest) with
    | some r => some r
    | none => solAfter rest

/-- Prepend a character to the first line. -/
def consHead (c : Char) : List (List Char) → List (List Char)
  | [] => [[c]]
  | l :: ls => (c :: l) :: ls

/-- Python `str.splitlines()`. -/
def pySplitlines : List Char → List (List Char)
  | [] => []
  | [c] => if isLineBreak c then [[]] else [[c]]
  | c1 :: c2 :: rest =>
    if c1 = '\r' && c2 = '\n' then [] :: pySplitlines rest
    else if isLineBreak c1 then [] :: pySplitlines (c2 :: rest)
    else consHead c1 (pySplitlines (c2 :: rest))

/-- `"\n".join(...)`. -/
def joinLines : List (List Char) → List Char
  | [] => []
  | [l] => l
  | l1 :: l2 :: ls => l1 ++ '\n' :: joinLines (l2 :: ls)

/-- Drop the last `n` characters. -/
def dropEnd (n : Nat) (s : List Char) : List Char := (s.reverse.drop n).reverse

/-- Boolean suffix test. -/
def listEndsWith (p s : List Char) : Bool := listStartsWith p.reverse s.reverse

/-- `re.sub(r"###$", "", s)` (lines 149-150).  Without `re.MULTILINE`, `$`
matches at the end of the string or just before a terminating newline, so
the sub removes one final `###`, possibly sitting before a final newline. -/
def pySubHashEnd (s : List Char) : List Char :=
  if listEndsWith ['#', '#', '#'] s then dropEnd 3 s
  else if listEndsWith ['#', '#', '#', '\n'] s then dropEnd 4 s ++ ['\n']
  else s

def problemCSPat : List Char := ['P', 'r', 'o', 'b', 'l', 'e', 'm']

/-- Whether `^Problem\s*\d+` (case-sensitive) matches at the head. -/
def startsProblemNum (s : List Char) : Bool :=
  match matchCS problemCSPat s with
  | none => false
  | some r =>
    match dropSpaces r with
    | c :: _ => c.isDigit
    | [] => false

/-- `re.sub(r"^Problem\s*\d+\s*", "", s)` (line 155, case-sensitive). -/
def subLeadingProblem (s : List Char) : List Char :=
  match matchCS problemCSPat s with
  | none => s
  | some r =>
    match dropSpaces r with
    | c :: r2 =>
      if c.isDigit then dropSpaces ((c :: r2).dropWhile Char.isDigit) else s
    | [] => s

/-- `ln.lower().startswith("answer:")` (line 153). -/
def isAnswerLine (ln : List Char) : Bool :=
  listStartsWith ['a', 'n', 's', 'w', 'e', 'r', ':'] (ln.map pyLower)

/-- The parser's output record `{title, statement, solution}`. -/
structure Rec where
  title : List Char
  statement : List Char
  solution : List Char
deriving DecidableEq

/-- The loop over `parts` (lines 124-133): each key/value pair updates
`statement` or `solution`, later pairs overwriting earlier ones. -/
def applyPairs : List (LKey × List Char) → List Char × List Char → List Char × List Char
  | [], acc => acc
  | (k, v0) :: rest, (st, so) =>
    let value := pyStrip v0
    match k with
    | .stmt =>
      let st2 :=
        match findSolStart value with
        | some m => pyStrip (value.take m)
        | none => pyStrip value
      applyPairs rest (st2, so)
    | .sol => applyPairs rest (st, value)

/-- `statement` and `solution` after the loop of lines 124-133, starting
from the empty defaults of lines 121-122. -/
def loopResult (b : List Char) : List Char × List Char :=
  applyPairs (splitLabels b).2 ([], [])

/-- `statement` after the missing-label fallback of lines 135-140. -/
def stmtStage1 (b : List Char) : List Char :=
  let st0 := (loopResult b).1
  if st0.isEmpty then pyStrip (b.take ((findSolStart b).getD b.length)) else st0

/-- `solution` after the missing-label fallback of lines 142-147. -/
def solStage1 (b : List Char) : List Char :=
  let so0 := (loopResult b).2
  if so0.isEmpty then
    match solAfter b with
    | some r => pyStrip r
    | none => []
  else so0

/-- `statement` after line 149 (`###$` removal and strip). -/
def stmtStage2 (b : List Char) : List Char := pyStrip (pySubHashEnd (stmtStage1 b))

/-- `solution` after line 150 — its final value. -/
def solutionFinal (b : List Char) : List Char := pyStrip (pySubHashEnd (solStage1 b))

/-- The statement lines surviving the `answer:` filter of lines 151-154. -/
def keptLines (b : List Char) : List (List Char) :=
  (pySplitlines (stmtStage2 b)).filter (fun ln => !isAnswerLine ln)

/-- `statement` after lines 151-154 (filter, join, strip). -/
def stmtStage3 (b : List Char) : List Char := pyStrip (joinLines (keptLines b))

/-- `statement` after line 155 — its final value. -/
def finalStatement (b : List Char) : List Char :=
  pyStrip (subLeadingProblem (stmtStage3 b))

/-- The record built from one stripped, non-empty block (lines 119-161). -/
def processBlock (b : List Char) : Rec :=
  ⟨[], finalStatement b, solutionFinal b⟩

/-- The `for block in blocks` loop of lines 114-164.  `cnt` is the number of
records already collected; a record is appended first and only then the
`len(problems) >= num` check may stop the loop. -/
def parseBlocksGo : List (List Char) → Int → Nat → List Rec
  | [], _, _ => []
  | blk :: rest, num, cnt =>
    let b := pyStrip blk
    if b.isEmpty then parseBlocksGo rest num cnt
    else
      let r := processBlock b
      if num ≤ ((cnt : Int) + 1) then [r]
      else r :: parseBlocksGo rest num (cnt + 1)

/-- `_block_parse(txt, num)` (lines 107-166) for a string argument. -/
def blockParse (txt : List Char) (num : Int) : List Rec :=
  if (pyStrip txt).isEmpty then [] else parseBlocksGo (splitDelim txt) num 0

/-- `_block_parse` including the `isinstance(txt, str)` guard of line 108:
`none` stands for a non-string argument. -/
def blockParseAny : Option (List Char) → Int → List Rec
  | none, _ => []
  | some txt, num => blockParse txt num

/-- Result of one remote call in `call_hackai_generate`: a non-200 HTTP
status (line 73), an exception anywhere in the attempt (line 87), or a
successfully extracted response text (line 80). -/
inductive Outcome where
  | httpError
  | exc
  | ok (raw : List Char)

/-- The fixed synthetic error record of lines 94-98. -/
def apiErrorRec : Rec :=
  ⟨"API Error".toList,
   "No response from HackAI (likely overload). Try again later.".toList,
   "The model returned no output.".toList⟩

/-- The retry loop of `call_hackai_generate` (lines 50-100).  `oc i` is the
outcome of the `i`-th remote call, `k` the attempts remaining, `calls` the
calls already made, `lastRaw` the latest retrieved text (`last_raw`, set on
line 81 before the parse).  Returns the result together with the total
number of remote calls that were made. -/
def callGo (oc : Nat → Outcome) (num : Int) : Nat → Nat → List Char → List Rec × Nat
  | 0, calls, lastRaw =>
    (if lastRaw.isEmpty then [apiErrorRec] else blockParse lastRaw num, calls)
  | k + 1, calls, lastRaw =>
    match oc calls with
    | .httpError => callGo oc num k (calls + 1) lastRaw
    | .exc => callGo oc num k (calls + 1) lastRaw
    | .ok raw =>
      let problems := blockParse raw num
      if num ≤ (problems.length : Int) then (problems, calls + 1)
      else callGo oc num k (calls + 1) raw

/-- `call_hackai_generate(prompt, num_problems, max_attempts)`; the prompt
only determines the remote outcomes, which are abstracted as `oc`. -/
def callHackaiGenerate (oc : Nat → Outcome) (num : Int) (maxAttempts : Nat) :
    List Rec × Nat :=
  callGo oc num maxAttempts 0 []

/-- Number of blocks of `txt` that contribute a record (non-whitespace after
stripping). -/
def goodCount (txt : List Char) : Nat :=
  ((splitDelim txt).filter (fun b => !(pyStrip b).isEmpty)).length

/-- The cleanup chain the parser applies to an extracted raw statement
(lines 149-155): trailing `###` removal, `answer:`-line filter, leading
`Problem <number>` removal, with the interleaved strips. -/
def cleanupStatement (s : List Char) : List Char :=
  pyStrip (subLeadingProblem (pyStrip (joinLines
    ((pySplitlines (pyStrip (pySubHashEnd s))).filter (fun ln => !isAnswerLine ln)))))

/-- The segment the delimiter split produces for one well-formed block. -/
def segOf (s t : List Char) : List Char :=
  "\nStatement: ".toList ++ s ++ "\nSolution: ".toList ++ t ++ "\n###\n".toList

/-- The stripped form of `segOf`. -/
def blockCore (s t : List Char) : List Char :=
  "Statement: ".toList ++ s ++ "\nSolution: ".toList ++ t ++ "\n###".toList

/-- One well-formed `### Problem <d>` block with statement `s` and
solution `t`. -/
def renderBlock (d s t : List Char) : List Char :=
  "### Problem ".toList ++ d ++ segOf s t

/-- A response text made of consecutive well-formed blocks. -/
def render (ps : List (List Char × List Char × List Char)) : List Char :=
  (ps.map (fun p => renderBlock p.1 p.2.1 p.2.2)).flatten

/-- A well-formed problem number: one or more ASCII digits. -/
def goodNum (d : List Char) : Bool := !d.isEmpty && d.all Char.isDigit

/-- Well-formed field content: non-empty, no surrounding whitespace, free of
the `###` delimiter, of `Statement`/`Solution` label words, of exotic line
breaks, of `answer:`-prefixed lines and of a leading `Problem <number>`
token — i.e. text the parser's cleanup steps leave alone. -/
def goodContent (s : List Char) : Bool :=
  !s.isEmpty &&
  !isPySpace (s.headD 'x') &&
  !isPySpace (s.getLastD 'x') &&
  s.all (fun c => !(c == '#')) &&
  noOccCI stmtKW s && noOccCI solKW s &&
  s.all (fun c => !isLineBreak c || c == '\n') &&
  (pySplitlines s).all (fun ln => !isAnswerLine ln) &&
  !startsProblemNum s

/-- Well-formedness of one rendered block's data. -/
def wfProblem (p : List Char × List Char × List Char) : Bool :=
  goodNum p.1 && goodContent p.2.1 && goodContent p.2.2

/-- The record a well-formed block should parse to. -/
def recOf (p : List Char × List Char × List Char) : Rec := ⟨[], p.2.1, p.2.2⟩

/-! ### Basic lemmas about the scanners -/

theorem matchCI_length {p : List Char} :
    ∀ {s r : List Char}, matchCI p s = some r → r.length + p.length = s.length := by
  induction p with
  | nil =>
    intro s r h
    simp only [matchCI, Option.some.injEq] at h
    subst h; simp
  | cons a p ih =>
    intro s r h
    cases s with
    | nil => simp [matchCI] at h
    | cons c cs =>
      simp only [matchCI] at h
      split at h
      · have := ih h
        simp only [List.length_cons]
        omega
      · simp at h

theorem matchCI_suffix {p : List Char} :
    ∀ {s r : List Char}, matchCI p s = some r → r <:+ s := by
  induction p with
  | nil =>
    intro s r h
    simp only [matchCI, Option.some.injEq] at h
    subst h; exact List.suffix_refl s
  | cons a p ih =>
    intro s r h
    cases s with
    | nil => simp [matchCI] at h
    | cons c cs =>
      simp only [matchCI] at h
      split at h
      · exact (ih h).trans (List.suffix_cons c cs)
      · simp at h

theorem matchCI_append {p : List Char} :
    ∀ {v : List Char} (w : List Char), p.length ≤ v.length →
      matchCI p (v ++ w) = (matchCI p v).map (· ++ w) := by
  induction p with
  | nil => intro v w _; simp [matchCI]
  | cons a p ih =>
    intro v w h
    cases v with
    | nil => simp at h
    | cons c cs =>
      simp only [List.cons_append, matchCI]
      by_cases hc : pyLower c = pyLower a
      · rw [if_pos hc, if_pos hc]
        simp only [List.append_eq]
        exact ih w (by simpa using h)
      · rw [if_neg hc, if_neg hc]; rfl

theorem matchCI_cross {p : List Char} (hp : ∀ k ∈ p, pyLower k ≠ '\n') :
    ∀ {v : List Char} (w : List Char), v.length < p.length →
      matchCI p (v ++ '\n' :: w) = none := by
  induction p with
  | nil => intro v w h; simp at h
  | cons a p ih =>
    intro v w h
    cases v with
    | nil =>
      simp only [List.nil_append, matchCI]
      rw [if_neg]
      intro hEq
      exact hp a (List.mem_cons_self a p) (by rw [← hEq]; decide)
    | cons c cs =>
      simp only [List.cons_append, matchCI]
      by_cases hc : pyLower c = pyLower a
      · rw [if_pos hc]
        exact ih (fun k hk => hp k (List.mem_cons_of_mem a hk)) w (by simpa using h)
      · rw [if_neg hc]

theorem dropWhile_all_append {q : Char → Bool} {x : Char} {t : List Char} (hx : q x = false) :
    ∀ {d : List Char}, (∀ c ∈ d, q c = true) →
      List.dropWhile q (d ++ x :: t) = x :: t := by
  intro d
  induction d with
  | nil => intro _; simp [List.dropWhile_cons, hx]
  | cons a d ih =>
    intro hall
    rw [List.cons_append, List.dropWhile_cons, if_pos (hall a (by simp))]
    exact ih fun c hc => hall c (by simp [hc])

theorem dropWhile_eq_self_of_head {q : Char → Bool} {s : List Char}
    (h : q (s.headD 'x') = false) : List.dropWhile q s = s := by
  cases s with
  | nil => rfl
  | cons c cs =>
    simp only [List.headD_cons] at h
    simp [List.dropWhile_cons, h]

theorem headD_reverse (s : List Char) : s.reverse.headD 'x' = s.getLastD 'x' := by
  rw [List.headD_eq_head?_getD, List.head?_reverse, List.getLastD_eq_getLast?]

theorem pyStrip_eq_self {s : List Char} (h1 : isPySpace (s.headD 'x') = false)
    (h2 : isPySpace (s.getLastD 'x') = false) : pyStrip s = s := by
  unfold pyStrip
  rw [dropWhile_eq_self_of_head h1, dropWhile_eq_self_of_head (by rwa [headD_reverse]),
    List.reverse_reverse]

theorem pyStrip_cons_space {c : Char} (h : isPySpace c = true) (s : List Char) :
    pyStrip (c :: s) = pyStrip s := by
  simp [pyStrip, List.dropWhile_cons, h]

theorem pyStrip_append_space {c : Char} (h : isPySpace c = true) (s : List Char) :
    pyStrip (s ++ [c]) = pyStrip s := by
  unfold pyStrip
  rw [List.dropWhile_append]
  by_cases he : (List.dropWhile isPySpace s).isEmpty = true
  · rw [if_pos he, List.isEmpty_iff.mp he]
    simp [List.dropWhile_cons, h]
  · rw [if_neg he, List.reverse_append]
    simp [List.dropWhile_cons, h]

theorem pyStrip_eq_nil_iff {s : List Char} :
    pyStrip s = [] ↔ ∀ c ∈ s, isPySpace c = true := by
  simp only [pyStrip, List.reverse_eq_nil_iff, List.dropWhile_eq_nil_iff, List.mem_reverse]
  constructor
  · intro h c hc
    rw [← List.takeWhile_append_dropWhile isPySpace s] at hc
    rcases List.mem_append.mp hc with h1 | h2
    · exact List.mem_takeWhile_imp h1
    · exact h c h2
  · intro h c hc
    exact h c ((List.dropWhile_suffix _).mem hc)

theorem pyLower_eq_nonletter {c t : Char} (ht : t.toNat < 97 ∨ 122 < t.toNat)
    (h : pyLower c = t) : c = t := by
  unfold pyLower at h
  by_cases hu : 65 ≤ c.toNat ∧ c.toNat ≤ 90
  · rw [if_pos hu] at h
    exfalso
    have hv : (c.toNat + 32).isValidChar := Or.inl (by omega)
    have hn : t.toNat = c.toNat + 32 := by
      rw [← h, Char.ofNat, dif_pos hv]
      simp [Char.ofNatAux, Char.toNat, UInt32.toNat]
    omega
  · rwa [if_neg hu] at h

theorem pyLower_ne_of_ne {c t : Char} (ht : t.toNat < 97 ∨ 122 < t.toNat) (h : c ≠ t) :
    pyLower c ≠ t := fun hEq => h (pyLower_eq_nonletter ht hEq)

theorem matchProblemDelim_none_of_ne_hash {c : Char} (h : c ≠ '#') (s : List Char) :
    matchProblemDelim (c :: s) = none := by
  unfold matchProblemDelim
  have h1 : matchCI hashPat (c :: s) = none := by
    simp only [hashPat, matchCI]
    rw [if_neg]
    intro hEq
    have h2 : pyLower '#' = '#' := by decide
    rw [h2] at hEq
    exact pyLower_ne_of_ne (by decide) h hEq
  rw [h1]

theorem matchProblemDelim_length {s r : List Char} (h : matchProblemDelim s = some r) :
    r.length < s.length := by
  unfold matchProblemDelim at h
  split at h
  · exact absurd h (by simp)
  next r1 h1 =>
    split at h
    · exact absurd h (by simp)
    next r2 h2 =>
      split at h
      · exact absurd h (by simp)
      next c r3 h3 =>
        split at h
        · have hr : r = (c :: r3).dropWhile Char.isDigit := by
            simpa using h.symm
          have l1 := matchCI_length h1
          have l2 := matchCI_length h2
          have l3 : (dropSpaces r1).length ≤ r1.length :=
            (List.dropWhile_suffix _).length_le
          have l4 : (dropSpaces r2).length ≤ r2.length :=
            (List.dropWhile_suffix _).length_le
          have l5 : r.length ≤ (c :: r3).length := by
            rw [hr]; exact (List.dropWhile_suffix _).length_le
          rw [h3] at l4
          simp only [hashPat, problemCIPat, List.length_cons, List.length_nil] at l1 l2
          omega
        · exact absurd h (by simp)

theorem splitDelimF_nilStr (f : Nat) (acc : List Char) :
    splitDelimAuxF f [] acc = [acc.reverse] := by
  cases f <;> simp [splitDelimAuxF]

theorem splitDelimF_skip {c : Char} {s acc : List Char} {f : Nat}
    (h : matchProblemDelim (c :: s) = none) :
    splitDelimAuxF (f + 1) (c :: s) acc = splitDelimAuxF f s (c :: acc) := by
  simp [splitDelimAuxF, h]

theorem splitDelimF_hit {c : Char} {s r acc : List Char} {f : Nat}
    (h : matchProblemDelim (c :: s) = some r) :
    splitDelimAuxF (f + 1) (c :: s) acc = acc.reverse :: splitDelimAuxF f r [] := by
  simp [splitDelimAuxF, h]

theorem toNat_of_isDigit {c : Char} (h : c.isDigit = true) :
    48 ≤ c.toNat ∧ c.toNat ≤ 57 := by
  simp only [Char.isDigit, Bool.and_eq_true, decide_eq_true_eq] at h
  obtain ⟨h1, h2⟩ := h
  exact ⟨UInt32.le_toNat_of_le (by decide) h1, UInt32.toNat_le_of_le (by decide) h2⟩

theorem isPySpace_toNat {c : Char} (h : isPySpace c = true) :
    c.toNat < 33 ∨ c.toNat = 133 := by
  simp only [isPySpace, Bool.or_eq_true, beq_iff_eq] at h
  rcases h with ((((((((((rfl|rfl)|rfl)|rfl)|rfl)|rfl)|rfl)|rfl)|rfl)|rfl)|rfl) <;> decide

theorem isPySpace_false_of_toNat {c : Char} (h1 : 33 ≤ c.toNat) (h2 : c.toNat ≠ 133) :
    isPySpace c = false := by
  cases hb : isPySpace c
  · rfl
  · rcases isPySpace_toNat hb with h | h <;> omega

theorem isPySpace_false_of_digit {c : Char} (h : c.isDigit = true) : isPySpace c = false := by
  have := toNat_of_isDigit h
  exact isPySpace_false_of_toNat (by omega) (by omega)

theorem matchCI_cons_ne {p c : Char} {ps s2 : List Char} (h : pyLower c ≠ pyLower p) :
    matchCI (p :: ps) (c :: s2) = none := by
  simp only [matchCI]
  rw [if_neg h]

theorem matchCI_cons_eq {p c : Char} {ps s2 : List Char} (h : pyLower c = pyLower p) :
    matchCI (p :: ps) (c :: s2) = matchCI ps s2 := by
  simp only [matchCI]
  rw [if_pos h]

theorem matchProblemDelim_none_hashfail {s : List Char} (h : matchCI hashPat s = none) :
    matchProblemDelim s = none := by
  unfold matchProblemDelim
  rw [h]

theorem matchProblemDelim_none_probfail {s r1 : List Char} (h : matchCI hashPat s = some r1)
    (h2 : matchCI problemCIPat (dropSpaces r1) = none) : matchProblemDelim s = none := by
  unfold matchProblemDelim
  rw [h]
  show (match matchCI problemCIPat (dropSpaces r1) with
    | none => none
    | some r2 =>
      match dropSpaces r2 with
      | [] => none
      | c :: r3 => if c.isDigit = true then some (List.dropWhile Char.isDigit (c :: r3)) else none)
    = none
  rw [h2]


theorem matchCI_nil (s : List Char) : matchCI [] s = some s := rfl

theorem matchProblemDelim_build {s r1 r2 : List Char} {e : Char} {r3 : List Char}
    (h1 : matchCI hashPat s = some r1)
    (h2 : matchCI problemCIPat (dropSpaces r1) = some r2)
    (h3 : dropSpaces r2 = e :: r3)
    (h4 : e.isDigit = true) :
    matchProblemDelim s = some ((e :: r3).dropWhile Char.isDigit) := by
  unfold matchProblemDelim
  rw [h1]
  show (match matchCI problemCIPat (dropSpaces r1) with
    | none => none
    | some r2 =>
      match dropSpaces r2 with
      | [] => none
      | c :: r3 => if c.isDigit = true then some (List.dropWhile Char.isDigit (c :: r3)) else none)
    = some (List.dropWhile Char.isDigit (e :: r3))
  rw [h2]
  show (match dropSpaces r2 with
    | [] => none
    | c :: r3 => if c.isDigit = true then some (List.dropWhile Char.isDigit (c :: r3)) else none)
    = some (List.dropWhile Char.isDigit (e :: r3))
  rw [h3]
  show (if e.isDigit = true then some (List.dropWhile Char.isDigit (e :: r3)) else none)
    = some (List.dropWhile Char.isDigit (e :: r3))
  rw [if_pos h4]

theorem matchProblemDelim_trailerHash {rest : List Char}
    (h : rest = [] ∨ ∃ r2, rest = '#' :: r2) :
    matchProblemDelim ('#' :: '#' :: '#' :: '\n' :: rest) = none := by
  have h1 : matchCI hashPat ('#' :: '#' :: '#' :: '\n' :: rest) = some ('\n' :: rest) := by
    simp only [hashPat]
    rw [matchCI_cons_eq rfl, matchCI_cons_eq rfl, matchCI_cons_eq rfl, matchCI_nil]
  refine matchProblemDelim_none_probfail h1 ?_
  have hd : dropSpaces ('\n' :: rest) = dropSpaces rest := by
    unfold dropSpaces
    rw [List.dropWhile_cons, if_pos (by decide)]
  rw [hd]
  rcases h with rfl | ⟨r2, rfl⟩
  · rfl
  · have hd2 : dropSpaces ('#' :: r2) = '#' :: r2 := by
      unfold dropSpaces
      rw [List.dropWhile_cons, if_neg (by decide)]
    rw [hd2]
    simp only [problemCIPat]
    exact matchCI_cons_ne (by decide)

theorem matchProblemDelim_renderHead {d : List Char} (hd1 : d ≠ [])
    (hd2 : ∀ c ∈ d, c.isDigit = true) (w : List Char) :
    matchProblemDelim ('#' :: '#' :: '#' :: ' ' :: 'P' :: 'r' :: 'o' :: 'b' :: 'l' :: 'e' ::
      'm' :: ' ' :: (d ++ '\n' :: w)) = some ('\n' :: w) := by
  obtain ⟨e, d2, rfl⟩ : ∃ e d2, d = e :: d2 := by
    cases d with
    | nil => exact absurd rfl hd1
    | cons e d2 => exact ⟨e, d2, rfl⟩
  have hed : e.isDigit = true := hd2 e (by simp)
  have hesp : isPySpace e = false := isPySpace_false_of_digit hed
  have h1 : matchCI hashPat ('#' :: '#' :: '#' :: ' ' :: 'P' :: 'r' :: 'o' :: 'b' :: 'l' ::
      'e' :: 'm' :: ' ' :: ((e :: d2) ++ '\n' :: w)) =
      some (' ' :: 'P' :: 'r' :: 'o' :: 'b' :: 'l' :: 'e' :: 'm' :: ' ' ::
        ((e :: d2) ++ '\n' :: w)) := by
    simp only [hashPat]
    rw [matchCI_cons_eq rfl, matchCI_cons_eq rfl, matchCI_cons_eq rfl, matchCI_nil]
  have h2 : dropSpaces (' ' :: 'P' :: 'r' :: 'o' :: 'b' :: 'l' :: 'e' :: 'm' :: ' ' ::
      ((e :: d2) ++ '\n' :: w)) =
      'P' :: 'r' :: 'o' :: 'b' :: 'l' :: 'e' :: 'm' :: ' ' :: ((e :: d2) ++ '\n' :: w) := by
    unfold dropSpaces
    rw [List.dropWhile_cons, if_pos (by decide), List.dropWhile_cons, if_neg (by decide)]
  have h3 : matchCI problemCIPat ('P' :: 'r' :: 'o' :: 'b' :: 'l' :: 'e' :: 'm' :: ' ' ::
      ((e :: d2) ++ '\n' :: w)) = some (' ' :: ((e :: d2) ++ '\n' :: w)) := by
    simp only [problemCIPat]
    rw [matchCI_cons_eq (by decide), matchCI_cons_eq (by decide), matchCI_cons_eq (by decide),
      matchCI_cons_eq (by decide), matchCI_cons_eq (by decide), matchCI_cons_eq (by decide),
      matchCI_cons_eq (by decide), matchCI_nil]
  have h4 : dropSpaces (' ' :: ((e :: d2) ++ '\n' :: w)) = e :: (d2 ++ '\n' :: w) := by
    unfold dropSpaces
    rw [List.dropWhile_cons, if_pos (by decide), List.cons_append, List.dropWhile_cons,
      if_neg (by simp [hesp])]
  have h5 : List.dropWhile Char.isDigit (e :: (d2 ++ '\n' :: w)) = '\n' :: w := by
    have := @dropWhile_all_append Char.isDigit '\n' w (by decide) (e :: d2) hd2
    simpa using this
  rw [matchProblemDelim_build h1 (by rw [h2]; exact h3) h4 hed, h5]


theorem splitDelimF_fuelIrrel :
    ∀ (f1 : Nat) {s : List Char} (f2 : Nat) (acc : List Char),
      s.length ≤ f1 → s.length ≤ f2 →
      splitDelimAuxF f1 s acc = splitDelimAuxF f2 s acc := by
  intro f1
  induction f1 with
  | zero =>
    intro s f2 acc h1 h2
    have hs : s = [] := List.length_eq_zero.mp (Nat.le_zero.mp h1)
    subst hs
    rw [splitDelimF_nilStr, splitDelimF_nilStr]
  | succ f1 ih =>
    intro s f2 acc h1 h2
    cases s with
    | nil => rw [splitDelimF_nilStr, splitDelimF_nilStr]
    | cons c rest =>
      cases f2 with
      | zero => simp at h2
      | succ f2 =>
        cases hm : matchProblemDelim (c :: rest) with
        | some r =>
          rw [splitDelimF_hit hm, splitDelimF_hit hm]
          have hr := matchProblemDelim_length hm
          simp only [List.length_cons] at hr h1 h2
          rw [ih f2 [] (by omega) (by omega)]
        | none =>
          rw [splitDelimF_skip hm, splitDelimF_skip hm]
          simp only [List.length_cons] at h1 h2
          exact ih f2 (c :: acc) (by omega) (by omega)

theorem runD_skip {c : Char} {s acc : List Char} (h : matchProblemDelim (c :: s) = none) :
    splitDelimAuxF (c :: s).length (c :: s) acc = splitDelimAuxF s.length s (c :: acc) := by
  rw [List.length_cons]
  exact splitDelimF_skip h

theorem runD_hit {c : Char} {s r acc : List Char} (h : matchProblemDelim (c :: s) = some r) :
    splitDelimAuxF (c :: s).length (c :: s) acc =
      acc.reverse :: splitDelimAuxF r.length r [] := by
  rw [List.length_cons, splitDelimF_hit h]
  have hr := matchProblemDelim_length h
  simp only [List.length_cons] at hr
  rw [splitDelimF_fuelIrrel s.length r.length [] (by omega) (by omega)]

theorem runD_scan {v : List Char} (hv : ∀ c ∈ v, c ≠ '#') :
    ∀ (s acc : List Char),
      splitDelimAuxF (v ++ s).length (v ++ s) acc =
        splitDelimAuxF s.length s (v.reverse ++ acc) := by
  induction v with
  | nil => intro s acc; simp
  | cons c v ih =>
    intro s acc
    rw [List.cons_append,
      runD_skip (matchProblemDelim_none_of_ne_hash (hv c (by simp)) _),
      ih (fun x hx => hv x (by simp [hx])) s (c :: acc)]
    simp

theorem runD_trailer {rest acc : List Char} (h : rest = [] ∨ ∃ r2, rest = '#' :: r2) :
    splitDelimAuxF (['\n', '#', '#', '#', '\n'] ++ rest).length
        (['\n', '#', '#', '#', '\n'] ++ rest) acc =
      splitDelimAuxF rest.length rest ('\n' :: '#' :: '#' :: '#' :: '\n' :: acc) := by
  have m1 : matchProblemDelim ('\n' :: '#' :: '#' :: '#' :: '\n' :: rest) = none :=
    matchProblemDelim_none_of_ne_hash (by decide) _
  have m2 : matchProblemDelim ('#' :: '#' :: '#' :: '\n' :: rest) = none :=
    matchProblemDelim_trailerHash h
  have m3 : matchProblemDelim ('#' :: '#' :: '\n' :: rest) = none := by
    refine matchProblemDelim_none_hashfail ?_
    simp only [hashPat]
    rw [matchCI_cons_eq rfl, matchCI_cons_eq rfl]
    exact matchCI_cons_ne (by decide)
  have m4 : matchProblemDelim ('#' :: '\n' :: rest) = none := by
    refine matchProblemDelim_none_hashfail ?_
    simp only [hashPat]
    rw [matchCI_cons_eq rfl]
    exact matchCI_cons_ne (by decide)
  have m5 : matchProblemDelim ('\n' :: rest) = none :=
    matchProblemDelim_none_of_ne_hash (by decide) _
  simp only [List.cons_append, List.nil_append]
  rw [runD_skip m1, runD_skip m2, runD_skip m3, runD_skip m4, runD_skip m5]

theorem goodContent_spec {s : List Char} (h : goodContent s = true) :
    s ≠ [] ∧ isPySpace (s.headD 'x') = false ∧ isPySpace (s.getLastD 'x') = false ∧
    (∀ c ∈ s, c ≠ '#') ∧ noOccCI stmtKW s = true ∧ noOccCI solKW s = true ∧
    (∀ c ∈ s, isLineBreak c = false ∨ c = '\n') ∧
    (∀ ln ∈ pySplitlines s, isAnswerLine ln = false) ∧ startsProblemNum s = false := by
  simp only [goodContent, Bool.and_eq_true, Bool.not_eq_true', List.all_eq_true,
    beq_eq_false_iff_ne, Bool.or_eq_true, beq_iff_eq, ne_eq] at h
  obtain ⟨⟨⟨⟨⟨⟨⟨⟨h1, h2⟩, h3⟩, h4⟩, h5⟩, h6⟩, h7⟩, h8⟩, h9⟩ := h
  have h1a : s ≠ [] := by
    cases s with
    | nil => simp at h1
    | cons a l => simp
  exact ⟨h1a, h2, h3, h4, h5, h6, h7, h8, h9⟩

theorem goodNum_spec {d : List Char} (h : goodNum d = true) :
    d ≠ [] ∧ ∀ c ∈ d, c.isDigit = true := by
  simp only [goodNum, Bool.and_eq_true, Bool.not_eq_true', List.all_eq_true] at h
  obtain ⟨h1, h2⟩ := h
  have h1a : d ≠ [] := by
    cases d with
    | nil => simp at h1
    | cons a l => simp
  exact ⟨h1a, h2⟩

theorem segOf_decomp (s t : List Char) :
    segOf s t =
      ('\n' :: ("Statement: ".toList ++ s ++ "\nSolution: ".toList ++ t)) ++
        ['\n', '#', '#', '#', '\n'] := by
  simp [segOf, List.append_assoc]

theorem renderBlock_cons (d s t : List Char) (w : List Char) :
    renderBlock d s t ++ w =
      '#' :: '#' :: '#' :: ' ' :: 'P' :: 'r' :: 'o' :: 'b' :: 'l' :: 'e' :: 'm' :: ' ' ::
        (d ++ (segOf s t ++ w)) := by
  simp [renderBlock, List.append_assoc]

theorem render_cons (p : List Char × List Char × List Char)
    (ps : List (List Char × List Char × List Char)) :
    render (p :: ps) = renderBlock p.1 p.2.1 p.2.2 ++ render ps := by
  simp [render]

theorem render_head_hash {ps : List (List Char × List Char × List Char)} (h : ps ≠ []) :
    render ps = [] ∨ ∃ r2, render ps = '#' :: r2 := by
  cases ps with
  | nil => exact absurd rfl h
  | cons p ps =>
    right
    rw [render_cons]
    rw [show renderBlock p.1 p.2.1 p.2.2 ++ render ps =
      '#' :: '#' :: '#' :: ' ' :: 'P' :: 'r' :: 'o' :: 'b' :: 'l' :: 'e' :: 'm' :: ' ' ::
        (p.1 ++ (segOf p.2.1 p.2.2 ++ render ps)) from renderBlock_cons _ _ _ _]
    exact ⟨_, rfl⟩

theorem runD_render :
    ∀ (ps : List (List Char × List Char × List Char)), (∀ p ∈ ps, wfProblem p = true) →
      ps ≠ [] → ∀ (acc : List Char),
      splitDelimAuxF (render ps).length (render ps) acc =
        acc.reverse :: ps.map (fun p => segOf p.2.1 p.2.2) := by
  intro ps
  induction ps with
  | nil => intro _ hne; exact absurd rfl hne
  | cons p ps ih =>
    rintro hwf - acc
    obtain ⟨d, s, t⟩ := p
    have hw := hwf _ (List.mem_cons_self _ _)
    have hw2 : goodNum d = true ∧ goodContent s = true ∧ goodContent t = true := by
      simpa [wfProblem, Bool.and_eq_true, and_assoc] using hw
    obtain ⟨hd, hs, ht⟩ := hw2
    obtain ⟨hd1, hd2⟩ := goodNum_spec hd
    obtain ⟨hsne, hshead, hslast, hshash, -, -, -, -, -⟩ := goodContent_spec hs
    obtain ⟨htne, hthead, htlast, hthash, -, -, -, -, -⟩ := goodContent_spec ht
    have hvhash : ∀ c ∈ ('\n' :: ("Statement: ".toList ++ s ++ "\nSolution: ".toList ++ t)),
        c ≠ '#' := by
      have hA : ∀ c ∈ "Statement: ".toList, c ≠ '#' := by decide
      have hB : ∀ c ∈ "\nSolution: ".toList, c ≠ '#' := by decide
      intro c hc
      simp only [List.mem_cons, List.mem_append] at hc
      rcases hc with rfl | ((hc | hc) | hc) | hc
      · decide
      · exact hA c hc
      · exact hshash c hc
      · exact hB c hc
      · exact hthash c hc
    have hhit : matchProblemDelim ('#' :: '#' :: '#' :: ' ' :: 'P' :: 'r' :: 'o' :: 'b' ::
        'l' :: 'e' :: 'm' :: ' ' :: (d ++ (segOf s t ++ render ps)))
        = some (segOf s t ++ render ps) := by
      have hsegcons : segOf s t ++ render ps =
          '\n' :: ("Statement: ".toList ++ s ++ "\nSolution: ".toList ++ t ++
            "\n###\n".toList ++ render ps) := by
        simp [segOf, List.append_assoc]
      rw [hsegcons]
      exact matchProblemDelim_renderHead hd1 hd2 _
    rw [render_cons]
    rw [show renderBlock (d, s, t).1 (d, s, t).2.1 (d, s, t).2.2 ++ render ps =
      '#' :: '#' :: '#' :: ' ' :: 'P' :: 'r' :: 'o' :: 'b' :: 'l' :: 'e' :: 'm' :: ' ' ::
        (d ++ (segOf s t ++ render ps)) from renderBlock_cons _ _ _ _]
    rw [runD_hit hhit]
    rw [show segOf s t ++ render ps =
      ('\n' :: ("Statement: ".toList ++ s ++ "\nSolution: ".toList ++ t)) ++
        (['\n', '#', '#', '#', '\n'] ++ render ps) from by
      rw [segOf_decomp s t, List.append_assoc]]
    rw [runD_scan hvhash (['\n', '#', '#', '#', '\n'] ++ render ps) []]
    by_cases hps : ps = []
    · subst hps
      rw [show render ([] : List (List Char × List Char × List Char)) = [] from rfl]
      rw [runD_trailer (Or.inl rfl)]
      rw [splitDelimF_nilStr]
      simp [segOf_decomp]
    · rw [runD_trailer (render_head_hash hps)]
      rw [ih (fun x hx => hwf x (List.mem_cons_of_mem _ hx)) hps _]
      simp [segOf_decomp]

theorem splitDelim_render {ps : List (List Char × List Char × List Char)}
    (hwf : ∀ p ∈ ps, wfProblem p = true) (hne : ps ≠ []) :
    splitDelim (render ps) = [] :: ps.map (fun p => segOf p.2.1 p.2.2) := by
  unfold splitDelim
  simpa using runD_render ps hwf hne []

/-! ### Lemmas about the label splitter -/

theorem expectColon_length {r0 r2 : List Char} (h : expectColon r0 = some r2) :
    r2.length < r0.length := by
  unfold expectColon at h
  split at h
  next r2a heq =>
    simp only [Option.some.injEq] at h
    subst h
    have l1 : (dropSpaces r0).length ≤ r0.length := (List.dropWhile_suffix _).length_le
    have l2 : (dropSpaces r2a).length ≤ r2a.length := (List.dropWhile_suffix _).length_le
    rw [heq] at l1
    simp only [List.length_cons] at l1
    omega
  · exact absurd h (by simp)

theorem matchLabel_length {s : List Char} {k : LKey} {r : List Char}
    (h : matchLabel s = some (k, r)) : r.length < s.length := by
  unfold matchLabel at h
  split at h
  next r0 hst =>
    simp only [Option.some.injEq, Prod.mk.injEq] at h
    obtain ⟨-, rfl⟩ := h
    unfold matchStmtAt at hst
    split at hst
    next r1 hci =>
      have := matchCI_length hci
      have := expectColon_length hst
      simp only [stmtKW, List.length_cons, List.length_nil] at *
      omega
    · exact absurd hst (by simp)
  next hst =>
    split at h
    next r0 hso =>
      simp only [Option.some.injEq, Prod.mk.injEq] at h
      obtain ⟨-, rfl⟩ := h
      unfold matchSolAt at hso
      split at hso
      next r1 hci =>
        have := matchCI_length hci
        have := expectColon_length hso
        simp only [solKW, List.length_cons, List.length_nil] at *
        omega
      · exact absurd hso (by simp)
    · exact absurd h (by simp)

theorem splitLabelsF_nilStr (f : Nat) (acc : List Char) :
    splitLabelsAuxF f [] acc = (acc.reverse, []) := by
  cases f <;> simp [splitLabelsAuxF]

theorem splitLabelsF_skip {c : Char} {s acc : List Char} {f : Nat}
    (h : matchLabel (c :: s) = none) :
    splitLabelsAuxF (f + 1) (c :: s) acc = splitLabelsAuxF f s (c :: acc) := by
  simp [splitLabelsAuxF, h]

theorem splitLabelsF_hit {c : Char} {s r acc : List Char} {k : LKey} {f : Nat}
    (h : matchLabel (c :: s) = some (k, r)) :
    splitLabelsAuxF (f + 1) (c :: s) acc =
      (acc.reverse, (k, (splitLabelsAuxF f r []).1) :: (splitLabelsAuxF f r []).2) := by
  simp [splitLabelsAuxF, h]

theorem splitLabelsF_fuelIrrel :
    ∀ (f1 : Nat) {s : List Char} (f2 : Nat) (acc : List Char),
      s.length ≤ f1 → s.length ≤ f2 →
      splitLabelsAuxF f1 s acc = splitLabelsAuxF f2 s acc := by
  intro f1
  induction f1 with
  | zero =>
    intro s f2 acc h1 h2
    have hs : s = [] := List.length_eq_zero.mp (Nat.le_zero.mp h1)
    subst hs
    rw [splitLabelsF_nilStr, splitLabelsF_nilStr]
  | succ f1 ih =>
    intro s f2 acc h1 h2
    cases s with
    | nil => rw [splitLabelsF_nilStr, splitLabelsF_nilStr]
    | cons c rest =>
      cases f2 with
      | zero => simp at h2
      | succ f2 =>
        cases hm : matchLabel (c :: rest) with
        | some kr =>
          obtain ⟨k, r⟩ := kr
          rw [splitLabelsF_hit hm, splitLabelsF_hit hm]
          have hr := matchLabel_length hm
          simp only [List.length_cons] at hr h1 h2
          rw [ih f2 [] (by omega) (by omega)]
        | none =>
          rw [splitLabelsF_skip hm, splitLabelsF_skip hm]
          simp only [List.length_cons] at h1 h2
          exact ih f2 (c :: acc) (by omega) (by omega)

theorem runL_skip {c : Char} {s acc : List Char} (h : matchLabel (c :: s) = none) :
    splitLabelsAuxF (c :: s).length (c :: s) acc = splitLabelsAuxF s.length s (c :: acc) := by
  rw [List.length_cons]
  exact splitLabelsF_skip h

theorem runL_hit {c : Char} {s r acc : List Char} {k : LKey}
    (h : matchLabel (c :: s) = some (k, r)) :
    splitLabelsAuxF (c :: s).length (c :: s) acc =
      (acc.reverse, (k, (splitLabelsAuxF r.length r []).1) ::
        (splitLabelsAuxF r.length r []).2) := by
  rw [List.length_cons, splitLabelsF_hit h]
  have hr := matchLabel_length h
  simp only [List.length_cons] at hr
  rw [splitLabelsF_fuelIrrel s.length r.length [] (by omega) (by omega)]

theorem noOccCI_cons {p : List Char} {c : Char} {r : List Char}
    (h : noOccCI p (c :: r) = true) :
    matchCI p (c :: r) = none ∧ noOccCI p r = true := by
  simp only [noOccCI, Bool.and_eq_true, Option.isNone_iff_eq_none] at h
  exact h

theorem matchCI_none_append_nl {p : List Char} (hp : ∀ k ∈ p, pyLower k ≠ '\n')
    {v : List Char} (hv : matchCI p v = none) (w : List Char) :
    matchCI p (v ++ '\n' :: w) = none := by
  by_cases hlen : p.length ≤ v.length
  · rw [matchCI_append ('\n' :: w) hlen, hv]; rfl
  · exact matchCI_cross hp w (by omega)

theorem matchLabel_none_append {v : List Char} (h1 : matchCI stmtKW v = none)
    (h2 : matchCI solKW v = none) (w : List Char) :
    matchLabel (v ++ '\n' :: w) = none := by
  have ha : matchStmtAt (v ++ '\n' :: w) = none := by
    unfold matchStmtAt
    rw [matchCI_none_append_nl (by decide) h1]
  have hb : matchSolAt (v ++ '\n' :: w) = none := by
    unfold matchSolAt
    rw [matchCI_none_append_nl (by decide) h2]
  unfold matchLabel
  rw [ha]
  show (match matchSolAt (v ++ '\n' :: w) with
    | some r => some (LKey.sol, r)
    | none => none) = none
  rw [hb]

theorem runL_scan {v : List Char} :
    noOccCI stmtKW v = true → noOccCI solKW v = true →
    ∀ (w acc : List Char),
      splitLabelsAuxF (v ++ '\n' :: w).length (v ++ '\n' :: w) acc =
        splitLabelsAuxF ('\n' :: w).length ('\n' :: w) (v.reverse ++ acc) := by
  induction v with
  | nil => intro _ _ w acc; simp
  | cons c v ih =>
    intro h1 h2 w acc
    obtain ⟨h1a, h1b⟩ := noOccCI_cons h1
    obtain ⟨h2a, h2b⟩ := noOccCI_cons h2
    have hm : matchLabel ((c :: v) ++ '\n' :: w) = none :=
      matchLabel_none_append h1a h2a w
    simp only [List.cons_append] at hm ⊢
    rw [runL_skip hm, ih h1b h2b w (c :: acc)]
    simp

theorem dropSpaces_nonspace_head {s2 : List Char} (hne : s2 ≠ [])
    (hhead : isPySpace (s2.headD 'x') = false) (w : List Char) :
    dropSpaces (s2 ++ w) = s2 ++ w := by
  cases s2 with
  | nil => exact absurd rfl hne
  | cons c s3 =>
    simp only [List.headD_cons] at hhead
    unfold dropSpaces
    simp only [List.cons_append]
    rw [List.dropWhile_cons, if_neg (by simp [hhead])]

theorem expectColon_colon_space {u : List Char} (hne : u ≠ [])
    (hhead : isPySpace (u.headD 'x') = false) (w : List Char) :
    expectColon (':' :: ' ' :: (u ++ w)) = some (u ++ w) := by
  unfold expectColon
  rw [show dropSpaces (':' :: ' ' :: (u ++ w)) = ':' :: ' ' :: (u ++ w) from by
    unfold dropSpaces
    rw [List.dropWhile_cons, if_neg (by decide)]]
  show some (dropSpaces (' ' :: (u ++ w))) = some (u ++ w)
  rw [show dropSpaces (' ' :: (u ++ w)) = u ++ w from by
    unfold dropSpaces
    rw [List.dropWhile_cons, if_pos (by decide)]
    exact dropSpaces_nonspace_head hne hhead w]

theorem matchStmtAt_scaffold {s2 : List Char} (hne : s2 ≠ [])
    (hhead : isPySpace (s2.headD 'x') = false) (w : List Char) :
    matchStmtAt ('S' :: 't' :: 'a' :: 't' :: 'e' :: 'm' :: 'e' :: 'n' :: 't' :: ':' :: ' ' ::
      (s2 ++ w)) = some (s2 ++ w) := by
  unfold matchStmtAt
  simp only [stmtKW]
  rw [matchCI_cons_eq (by decide), matchCI_cons_eq (by decide), matchCI_cons_eq (by decide),
    matchCI_cons_eq (by decide), matchCI_cons_eq (by decide), matchCI_cons_eq (by decide),
    matchCI_cons_eq (by decide), matchCI_cons_eq (by decide), matchCI_cons_eq (by decide),
    matchCI_nil]
  show expectColon (':' :: ' ' :: (s2 ++ w)) = some (s2 ++ w)
  exact expectColon_colon_space hne hhead w

theorem matchSolAt_scaffold {t2 : List Char} (hne : t2 ≠ [])
    (hhead : isPySpace (t2.headD 'x') = false) (w : List Char) :
    matchSolAt ('S' :: 'o' :: 'l' :: 'u' :: 't' :: 'i' :: 'o' :: 'n' :: ':' :: ' ' ::
      (t2 ++ w)) = some (t2 ++ w) := by
  unfold matchSolAt
  simp only [solKW]
  rw [matchCI_cons_eq (by decide), matchCI_cons_eq (by decide), matchCI_cons_eq (by decide),
    matchCI_cons_eq (by decide), matchCI_cons_eq (by decide), matchCI_cons_eq (by decide),
    matchCI_cons_eq (by decide), matchCI_cons_eq (by decide), matchCI_nil]
  show expectColon (':' :: ' ' :: (t2 ++ w)) = some (t2 ++ w)
  exact expectColon_colon_space hne hhead w

theorem matchLabel_stmt_scaffold {s2 : List Char} (hne : s2 ≠ [])
    (hhead : isPySpace (s2.headD 'x') = false) (w : List Char) :
    matchLabel ('S' :: 't' :: 'a' :: 't' :: 'e' :: 'm' :: 'e' :: 'n' :: 't' :: ':' :: ' ' ::
      (s2 ++ w)) = some (.stmt, s2 ++ w) := by
  unfold matchLabel
  rw [matchStmtAt_scaffold hne hhead w]

theorem matchLabel_sol_scaffold {t2 : List Char} (hne : t2 ≠ [])
    (hhead : isPySpace (t2.headD 'x') = false) (w : List Char) :
    matchLabel ('S' :: 'o' :: 'l' :: 'u' :: 't' :: 'i' :: 'o' :: 'n' :: ':' :: ' ' ::
      (t2 ++ w)) = some (.sol, t2 ++ w) := by
  have hst : matchStmtAt ('S' :: 'o' :: 'l' :: 'u' :: 't' :: 'i' :: 'o' :: 'n' :: ':' :: ' ' ::
      (t2 ++ w)) = none := by
    unfold matchStmtAt
    simp only [stmtKW]
    rw [matchCI_cons_eq (by decide)]
    rw [matchCI_cons_ne (by decide)]
  unfold matchLabel
  rw [hst]
  show (match matchSolAt ('S' :: 'o' :: 'l' :: 'u' :: 't' :: 'i' :: 'o' :: 'n' :: ':' :: ' ' ::
      (t2 ++ w)) with
    | some r => some (LKey.sol, r)
    | none => none) = some (LKey.sol, t2 ++ w)
  rw [matchSolAt_scaffold hne hhead w]

theorem matchLabel_none_of_not_s {c : Char} (hc : pyLower c ≠ 's') (s : List Char) :
    matchLabel (c :: s) = none := by
  have hst : matchStmtAt (c :: s) = none := by
    unfold matchStmtAt
    simp only [stmtKW]
    rw [matchCI_cons_ne (by simpa using hc)]
  have hso : matchSolAt (c :: s) = none := by
    unfold matchSolAt
    simp only [solKW]
    rw [matchCI_cons_ne (by simpa using hc)]
  unfold matchLabel
  rw [hst]
  show (match matchSolAt (c :: s) with
    | some r => some (LKey.sol, r)
    | none => none) = none
  rw [hso]

theorem splitLabels_blockCore {s t : List Char} (hs : goodContent s = true)
    (ht : goodContent t = true) :
    splitLabels (blockCore s t) =
      ([], [(LKey.stmt, s ++ ['\n']), (LKey.sol, t ++ ['\n', '#', '#', '#'])]) := by
  obtain ⟨hsne, hshead, -, -, hsno1, hsno2, -, -, -⟩ := goodContent_spec hs
  obtain ⟨htne, hthead, -, -, htno1, htno2, -, -, -⟩ := goodContent_spec ht
  have hcore : blockCore s t =
      'S' :: 't' :: 'a' :: 't' :: 'e' :: 'm' :: 'e' :: 'n' :: 't' :: ':' :: ' ' ::
        (s ++ ('\n' :: ('S' :: 'o' :: 'l' :: 'u' :: 't' :: 'i' :: 'o' :: 'n' :: ':' :: ' ' ::
          (t ++ ('\n' :: '#' :: '#' :: '#' :: []))))) := by
    simp [blockCore, List.append_assoc]
  unfold splitLabels
  rw [hcore]
  rw [runL_hit (matchLabel_stmt_scaffold hsne hshead _)]
  rw [runL_scan hsno1 hsno2 _ []]
  rw [runL_skip (matchLabel_none_of_not_s (by decide) _)]
  rw [runL_hit (matchLabel_sol_scaffold htne hthead _)]
  rw [runL_scan htno1 htno2 _ []]
  rw [runL_skip (matchLabel_none_of_not_s (by decide) _)]
  rw [runL_skip (matchLabel_none_of_not_s (by decide) _)]
  rw [runL_skip (matchLabel_none_of_not_s (by decide) _)]
  rw [runL_skip (matchLabel_none_of_not_s (by decide) _)]
  rw [splitLabelsF_nilStr]
  simp

theorem matchSolAt_none_of_matchCI {v : List Char} (h : matchCI solKW v = none) :
    matchSolAt v = none := by
  unfold matchSolAt
  rw [h]

theorem matchStmtAt_none_of_matchCI {v : List Char} (h : matchCI stmtKW v = none) :
    matchStmtAt v = none := by
  unfold matchStmtAt
  rw [h]

theorem findSolStart_none_of_noOcc {v : List Char} :
    noOccCI solKW v = true → findSolStart v = none := by
  induction v with
  | nil => intro _; rfl
  | cons c r ih =>
    intro h
    obtain ⟨h1, h2⟩ := noOccCI_cons h
    unfold findSolStart
    rw [matchSolAt_none_of_matchCI h1]
    simp [ih h2]

theorem solAfter_none_of_noOcc {v : List Char} :
    noOccCI solKW v = true → solAfter v = none := by
  induction v with
  | nil => intro _; rfl
  | cons c r ih =>
    intro h
    obtain ⟨h1, h2⟩ := noOccCI_cons h
    unfold solAfter
    rw [matchSolAt_none_of_matchCI h1]
    exact ih h2

theorem listStartsWith_mem {p r : List Char} :
    listStartsWith p r = true → ∀ x ∈ p, x ∈ r := by
  induction p generalizing r with
  | nil => intro _ x hx; simp at hx
  | cons a p ih =>
    intro h x hx
    cases r with
    | nil => simp [listStartsWith] at h
    | cons c cs =>
      simp only [listStartsWith, Bool.and_eq_true, beq_iff_eq] at h
      obtain ⟨rfl, h2⟩ := h
      rcases List.mem_cons.mp hx with rfl | hx2
      · exact List.mem_cons_self _ _
      · exact List.mem_cons_of_mem _ (ih h2 x hx2)

theorem pySubHashEnd_eq_self_of_no_hash {s : List Char} (h : ∀ c ∈ s, c ≠ '#') :
    pySubHashEnd s = s := by
  unfold pySubHashEnd
  rw [if_neg ?h1, if_neg ?h2]
  case h1 =>
    intro hcon
    have := listStartsWith_mem hcon '#' (by decide)
    rw [List.mem_reverse] at this
    exact h '#' this rfl
  case h2 =>
    intro hcon
    have := listStartsWith_mem hcon '#' (by decide)
    rw [List.mem_reverse] at this
    exact h '#' this rfl

theorem pySubHashEnd_solval (t : List Char) :
    pySubHashEnd (t ++ ['\n', '#', '#', '#']) = t ++ ['\n'] := by
  unfold pySubHashEnd
  rw [if_pos ?hp]
  case hp =>
    unfold listEndsWith
    rw [List.reverse_append]
    rw [show (['\n', '#', '#', '#'] : List Char).reverse = ['#', '#', '#', '\n'] from rfl]
    simp [listStartsWith]
  unfold dropEnd
  rw [List.reverse_append]
  rw [show (['\n', '#', '#', '#'] : List Char).reverse = ['#', '#', '#', '\n'] from rfl]
  simp

theorem applyPairs_nil (acc : List Char × List Char) : applyPairs [] acc = acc := rfl

theorem applyPairs_stmt {v0 : List Char} {rest : List (LKey × List Char)}
    {st so : List Char} :
    applyPairs ((LKey.stmt, v0) :: rest) (st, so) =
      applyPairs rest
        ((match findSolStart (pyStrip v0) with
          | some m => pyStrip ((pyStrip v0).take m)
          | none => pyStrip (pyStrip v0)), so) := rfl

theorem applyPairs_sol {v0 : List Char} {rest : List (LKey × List Char)}
    {st so : List Char} :
    applyPairs ((LKey.sol, v0) :: rest) (st, so) = applyPairs rest (st, pyStrip v0) := rfl

theorem getLast?_append_solval (t : List Char) :
    (t ++ ['\n', '#', '#', '#']).getLast? = some '#' := by
  rw [List.getLast?_append]
  rfl

theorem pyStrip_solval {t : List Char} (htne : t ≠ [])
    (hthead : isPySpace (t.headD 'x') = false) :
    pyStrip (t ++ ['\n', '#', '#', '#']) = t ++ ['\n', '#', '#', '#'] := by
  apply pyStrip_eq_self
  · cases t with
    | nil => exact absurd rfl htne
    | cons c t2 => simpa using hthead
  · rw [List.getLastD_eq_getLast?, getLast?_append_solval]
    decide

theorem pyStrip_stmtval {s : List Char} (hshead : isPySpace (s.headD 'x') = false)
    (hslast : isPySpace (s.getLastD 'x') = false) :
    pyStrip (s ++ ['\n']) = s := by
  rw [show (['\n'] : List Char) = ['\n'] from rfl]
  rw [pyStrip_append_space (by decide)]
  exact pyStrip_eq_self hshead hslast

theorem loopResult_blockCore {s t : List Char} (hs : goodContent s = true)
    (ht : goodContent t = true) :
    loopResult (blockCore s t) = (s, t ++ ['\n', '#', '#', '#']) := by
  obtain ⟨hsne, hshead, hslast, -, -, hsno2, -, -, -⟩ := goodContent_spec hs
  obtain ⟨htne, hthead, -, -, -, -, -, -, -⟩ := goodContent_spec ht
  unfold loopResult
  rw [splitLabels_blockCore hs ht]
  rw [show ([], [(LKey.stmt, s ++ ['\n']), (LKey.sol, t ++ ['\n', '#', '#', '#'])]).2
      = [(LKey.stmt, s ++ ['\n']), (LKey.sol, t ++ ['\n', '#', '#', '#'])] from rfl]
  rw [applyPairs_stmt, applyPairs_sol, applyPairs_nil]
  rw [pyStrip_stmtval hshead hslast, findSolStart_none_of_noOcc hsno2]
  rw [pyStrip_solval htne hthead]
  rw [pyStrip_eq_self hshead hslast]

theorem stmtStage1_blockCore {s t : List Char} (hs : goodContent s = true)
    (ht : goodContent t = true) : stmtStage1 (blockCore s t) = s := by
  obtain ⟨hsne, -, -, -, -, -, -, -, -⟩ := goodContent_spec hs
  unfold stmtStage1
  rw [loopResult_blockCore hs ht]
  simp [hsne]

theorem solStage1_blockCore {s t : List Char} (hs : goodContent s = true)
    (ht : goodContent t = true) :
    solStage1 (blockCore s t) = t ++ ['\n', '#', '#', '#'] := by
  unfold solStage1
  rw [loopResult_blockCore hs ht]
  simp

theorem stmtStage2_blockCore {s t : List Char} (hs : goodContent s = true)
    (ht : goodContent t = true) : stmtStage2 (blockCore s t) = s := by
  obtain ⟨-, hshead, hslast, hshash, -, -, -, -, -⟩ := goodContent_spec hs
  unfold stmtStage2
  rw [stmtStage1_blockCore hs ht, pySubHashEnd_eq_self_of_no_hash hshash,
    pyStrip_eq_self hshead hslast]

theorem solutionFinal_blockCore {s t : List Char} (hs : goodContent s = true)
    (ht : goodContent t = true) : solutionFinal (blockCore s t) = t := by
  obtain ⟨-, hthead, htlast, -, -, -, -, -, -⟩ := goodContent_spec ht
  unfold solutionFinal
  rw [solStage1_blockCore hs ht, pySubHashEnd_solval,
    pyStrip_append_space (by decide), pyStrip_eq_self hthead htlast]

theorem pySplitlines_cons₂ {c1 c2 : Char} {rest : List Char}
    (h : ¬(c1 = '\r' ∧ c2 = '\n')) (hb : isLineBreak c1 = false) :
    pySplitlines (c1 :: c2 :: rest) = consHead c1 (pySplitlines (c2 :: rest)) := by
  show (if c1 = '\r' && c2 = '\n' then [] :: pySplitlines rest
    else if isLineBreak c1 then [] :: pySplitlines (c2 :: rest)
    else consHead c1 (pySplitlines (c2 :: rest))) = consHead c1 (pySplitlines (c2 :: rest))
  rw [if_neg (by simpa [Bool.and_eq_true, decide_eq_true_eq] using h), if_neg (by simp [hb])]

theorem pySplitlines_cons₂_nl {c1 c2 : Char} {rest : List Char}
    (h : ¬(c1 = '\r' ∧ c2 = '\n')) (hb : isLineBreak c1 = true) :
    pySplitlines (c1 :: c2 :: rest) = [] :: pySplitlines (c2 :: rest) := by
  show (if c1 = '\r' && c2 = '\n' then [] :: pySplitlines rest
    else if isLineBreak c1 then [] :: pySplitlines (c2 :: rest)
    else consHead c1 (pySplitlines (c2 :: rest))) = [] :: pySplitlines (c2 :: rest)
  rw [if_neg (by simpa [Bool.and_eq_true, decide_eq_true_eq] using h), if_pos (by simp [hb])]

theorem pySplitlines_ne_nil {s : List Char} (h : s ≠ []) : pySplitlines s ≠ [] := by
  cases s with
  | nil => exact absurd rfl h
  | cons c1 rest =>
    cases rest with
    | nil =>
      show (if isLineBreak c1 then [[]] else [[c1]]) ≠ []
      split <;> simp
    | cons c2 rest2 =>
      show (if c1 = '\r' && c2 = '\n' then [] :: pySplitlines rest2
        else if isLineBreak c1 then [] :: pySplitlines (c2 :: rest2)
        else consHead c1 (pySplitlines (c2 :: rest2))) ≠ []
      split
      · simp
      · split
        · simp
        · unfold consHead
          split <;> simp

theorem joinLines_consHead (c : Char) (L : List (List Char)) :
    joinLines (consHead c L) = c :: joinLines L := by
  cases L with
  | nil => rfl
  | cons l ls =>
    cases ls with
    | nil => rfl
    | cons l2 ls2 => rfl

theorem joinLines_splitlines {s : List Char}
    (hb : ∀ c ∈ s, isLineBreak c = false ∨ c = '\n') (hlast : s.getLast? ≠ some '\n') :
    joinLines (pySplitlines s) = s := by
  induction s with
  | nil => rfl
  | cons c1 rest ih =>
    cases rest with
    | nil =>
      have hc1 : isLineBreak c1 = false := by
        rcases hb c1 (by simp) with h | rfl
        · exact h
        · exact absurd (show (['\n'] : List Char).getLast? = some '\n' from rfl) hlast
      show joinLines (if isLineBreak c1 then [[]] else [[c1]]) = [c1]
      rw [if_neg (by simp [hc1])]
      rfl
    | cons c2 rest2 =>
      have hlast2 : (c2 :: rest2).getLast? ≠ some '\n' := by
        rwa [List.getLast?_cons_cons] at hlast
      have hb2 : ∀ c ∈ c2 :: rest2, isLineBreak c = false ∨ c = '\n' :=
        fun c hc => hb c (List.mem_cons_of_mem _ hc)
      have ihr := ih hb2 hlast2
      have hnopair : ¬(c1 = '\r' ∧ c2 = '\n') := by
        rintro ⟨rfl, -⟩
        rcases hb '\r' (by simp) with h | h
        · simp [isLineBreak] at h
        · exact absurd h (by decide)
      rcases hb c1 (by simp) with hc1 | rfl
      · rw [pySplitlines_cons₂ hnopair hc1, joinLines_consHead, ihr]
      · rw [pySplitlines_cons₂_nl hnopair (by decide)]
        have hne := @pySplitlines_ne_nil (c2 :: rest2) (by simp)
        obtain ⟨l, ls, hl⟩ : ∃ l ls, pySplitlines (c2 :: rest2) = l :: ls := by
          cases hx : pySplitlines (c2 :: rest2) with
          | nil => exact absurd hx hne
          | cons l ls => exact ⟨l, ls, rfl⟩
        rw [hl]
        show [] ++ '\n' :: joinLines (l :: ls) = '\n' :: c2 :: rest2
        rw [← hl, ihr]
        rfl

theorem keptLines_blockCore {s t : List Char} (hs : goodContent s = true)
    (ht : goodContent t = true) : keptLines (blockCore s t) = pySplitlines s := by
  obtain ⟨-, -, -, -, -, -, -, hsans, -⟩ := goodContent_spec hs
  unfold keptLines
  rw [stmtStage2_blockCore hs ht]
  apply List.filter_eq_self.mpr
  intro ln hln
  simp [hsans ln hln]

theorem getLast?_ne_nl {s : List Char} (hlast : isPySpace (s.getLastD 'x') = false) :
    s.getLast? ≠ some '\n' := by
  intro hcon
  have hx : s.getLastD 'x' = '\n' := by
    rw [List.getLastD_eq_getLast?, hcon]
    rfl
  rw [hx] at hlast
  exact absurd hlast (by decide)

theorem stmtStage3_blockCore {s t : List Char} (hs : goodContent s = true)
    (ht : goodContent t = true) : stmtStage3 (blockCore s t) = s := by
  obtain ⟨hsne, hshead, hslast, -, -, -, hsbr, -, -⟩ := goodContent_spec hs
  unfold stmtStage3
  rw [keptLines_blockCore hs ht, joinLines_splitlines hsbr (getLast?_ne_nl hslast),
    pyStrip_eq_self hshead hslast]

theorem subLeadingProblem_eq_self {s : List Char} (h : startsProblemNum s = false) :
    subLeadingProblem s = s := by
  unfold subLeadingProblem
  split
  · rfl
  next r hm =>
    split
    next c r2 hd =>
      have hds : startsProblemNum s = c.isDigit := by
        unfold startsProblemNum
        rw [hm]
        show (match dropSpaces r with
          | c :: _ => c.isDigit
          | [] => false) = c.isDigit
        rw [hd]
      rw [hds] at h
      rw [if_neg (by simp [h])]
    · rfl

theorem finalStatement_blockCore {s t : List Char} (hs : goodContent s = true)
    (ht : goodContent t = true) : finalStatement (blockCore s t) = s := by
  obtain ⟨-, hshead, hslast, -, -, -, -, -, hsprob⟩ := goodContent_spec hs
  unfold finalStatement
  rw [stmtStage3_blockCore hs ht, subLeadingProblem_eq_self hsprob,
    pyStrip_eq_self hshead hslast]

theorem processBlock_blockCore {s t : List Char} (hs : goodContent s = true)
    (ht : goodContent t = true) : processBlock (blockCore s t) = ⟨[], s, t⟩ := by
  unfold processBlock
  rw [finalStatement_blockCore hs ht, solutionFinal_blockCore hs ht]

theorem segOf_strip_decomp (s t : List Char) :
    segOf s t = '\n' :: (blockCore s t ++ ['\n']) := by
  simp [segOf, blockCore, List.append_assoc]

theorem blockCore_getLast (s t : List Char) : (blockCore s t).getLast? = some '#' := by
  rw [show blockCore s t =
      ("Statement: ".toList ++ s ++ "\nSolution: ".toList ++ t ++ "\n##".toList) ++ ['#'] from by
    simp [blockCore, List.append_assoc]]
  rw [List.getLast?_append]
  rfl

theorem blockCore_cons (s t : List Char) :
    blockCore s t = 'S' :: ("tatement: ".toList ++
      (s ++ ("\nSolution: ".toList ++ (t ++ "\n###".toList)))) := by
  unfold blockCore
  rw [show "Statement: ".toList = 'S' :: "tatement: ".toList from by decide]
  simp [List.append_assoc]

theorem blockCore_ne_nil (s t : List Char) : blockCore s t ≠ [] := by
  rw [blockCore_cons]
  simp

theorem pyStrip_segOf (s t : List Char) : pyStrip (segOf s t) = blockCore s t := by
  rw [segOf_strip_decomp, pyStrip_cons_space (by decide), pyStrip_append_space (by decide)]
  apply pyStrip_eq_self
  · rw [blockCore_cons]
    simp only [List.headD_cons]
    decide
  · rw [List.getLastD_eq_getLast?, blockCore_getLast]
    decide

theorem parseBlocksGo_segs {num : Int} :
    ∀ (ps : List (List Char × List Char × List Char)) (cnt : Nat),
      (∀ p ∈ ps, wfProblem p = true) → (cnt : Int) < num → num ≤ (cnt : Int) + ps.length →
      parseBlocksGo (ps.map (fun p => segOf p.2.1 p.2.2)) num cnt =
        (ps.take (num - cnt).toNat).map recOf := by
  intro ps
  induction ps with
  | nil =>
    intro cnt _ h1 h2
    simp only [List.length_nil, Nat.cast_zero, add_zero] at h2
    omega
  | cons p ps ih =>
    intro cnt hwf h1 h2
    obtain ⟨d, s, t⟩ := p
    have hw := hwf _ (List.mem_cons_self _ _)
    have hw2 : goodNum d = true ∧ goodContent s = true ∧ goodContent t = true := by
      simpa [wfProblem, Bool.and_eq_true, and_assoc] using hw
    obtain ⟨-, hs, ht⟩ := hw2
    simp only [List.map_cons]
    show parseBlocksGo (segOf s t :: ps.map (fun p => segOf p.2.1 p.2.2)) num cnt = _
    unfold parseBlocksGo
    rw [pyStrip_segOf s t]
    rw [if_neg (by simp [blockCore_ne_nil s t])]
    rw [processBlock_blockCore hs ht]
    by_cases hstop : num ≤ (cnt : Int) + 1
    · rw [if_pos hstop]
      have htake : (num - cnt).toNat = 1 := by omega
      rw [htake]
      rfl
    · rw [if_neg hstop]
      rw [ih (cnt + 1) (fun x hx => hwf x (List.mem_cons_of_mem _ hx)) (by push_cast; omega)
        (by simp only [List.length_cons] at h2; push_cast at h2 ⊢; omega)]
      have htake : (num - cnt).toNat = (num - ((cnt : Nat) + 1 : Nat)).toNat + 1 := by
        push_cast
        omega
      rw [htake]
      rfl

theorem parseBlocksGo_nil_block (rest : List (List Char)) (num : Int) (cnt : Nat) :
    parseBlocksGo ([] :: rest) num cnt = parseBlocksGo rest num cnt := rfl

theorem render_cons_hash (p : List Char × List Char × List Char)
    (ps : List (List Char × List Char × List Char)) :
    ∃ r2, render (p :: ps) = '#' :: r2 := by
  rw [render_cons]
  rw [show renderBlock p.1 p.2.1 p.2.2 ++ render ps =
    '#' :: '#' :: '#' :: ' ' :: 'P' :: 'r' :: 'o' :: 'b' :: 'l' :: 'e' :: 'm' :: ' ' ::
      (p.1 ++ (segOf p.2.1 p.2.2 ++ render ps)) from renderBlock_cons _ _ _ _]
  exact ⟨_, rfl⟩

/-- C1: for every text made of K well-formed `### Problem i` blocks — each
with both a `Statement:` and a `Solution:` label and content the cleanup
steps leave alone — and every requested count `num` with `1 ≤ num ≤ K`,
`_block_parse` returns exactly `num` records, in block order, each with a
non-empty statement and a non-empty solution. -/
theorem claim_C1_block_roundtrip (ps : List (List Char × List Char × List Char)) (num : Int)
    (hwf : ∀ p ∈ ps, wfProblem p = true) (h1 : 1 ≤ num) (h2 : num ≤ (ps.length : Int)) :
    blockParse (render ps) num = (ps.take num.toNat).map recOf ∧
    (blockParse (render ps) num).length = num.toNat ∧
    ∀ r ∈ blockParse (render ps) num, r.statement ≠ [] ∧ r.solution ≠ [] := by
  have hne : ps ≠ [] := by
    intro hcon
    subst hcon
    simp at h2
    omega
  obtain ⟨p0, ps0, rfl⟩ : ∃ p0 ps0, ps = p0 :: ps0 := by
    cases ps with
    | nil => exact absurd rfl hne
    | cons p0 ps0 => exact ⟨p0, ps0, rfl⟩
  have hmain : blockParse (render (p0 :: ps0)) num =
      ((p0 :: ps0).take num.toNat).map recOf := by
    unfold blockParse
    obtain ⟨r2, hr2⟩ := render_cons_hash p0 ps0
    rw [if_neg ?hguard]
    case hguard =>
      intro hcon
      rw [List.isEmpty_iff] at hcon
      have hmem : '#' ∈ render (p0 :: ps0) := by rw [hr2]; simp
      have := pyStrip_eq_nil_iff.mp hcon '#' hmem
      exact absurd this (by decide)
    rw [splitDelim_render hwf hne, parseBlocksGo_nil_block]
    have := @parseBlocksGo_segs num (p0 :: ps0) 0 hwf (by omega)
      (by simpa using h2)
    simpa using this
  refine ⟨hmain, ?_, ?_⟩
  · rw [hmain]
    simp only [List.length_map, List.length_take]
    have hlen : num.toNat ≤ (p0 :: ps0).length := by omega
    omega
  · intro r hr
    rw [hmain] at hr
    simp only [List.mem_map] at hr
    obtain ⟨p, hp, rfl⟩ := hr
    have hpm : p ∈ p0 :: ps0 := List.take_subset _ _ hp
    have hw := hwf p hpm
    have hw2 : goodNum p.1 = true ∧ goodContent p.2.1 = true ∧ goodContent p.2.2 = true := by
      simpa [wfProblem, Bool.and_eq_true, and_assoc] using hw
    obtain ⟨-, hs, ht⟩ := hw2
    obtain ⟨hsne, -, -, -, -, -, -, -, -⟩ := goodContent_spec hs
    obtain ⟨htne, -, -, -, -, -, -, -, -⟩ := goodContent_spec ht
    exact ⟨hsne, htne⟩

/-- Closed witness for `claim_C1_block_roundtrip` at a two-block input with
`num = 2`. -/
theorem claim_C1_block_roundtrip_witness :
    blockParse (render [(['1'], "Find x.".toList, "x=2".toList),
        (['2'], "Find y.".toList, "y=3".toList)]) 2 =
      (([(['1'], "Find x.".toList, "x=2".toList),
        (['2'], "Find y.".toList, "y=3".toList)]).take (2 : Int).toNat).map recOf ∧
    (blockParse (render [(['1'], "Find x.".toList, "x=2".toList),
        (['2'], "Find y.".toList, "y=3".toList)]) 2).length = (2 : Int).toNat ∧
    ∀ r ∈ blockParse (render [(['1'], "Find x.".toList, "x=2".toList),
        (['2'], "Find y.".toList, "y=3".toList)]) 2,
      r.statement ≠ [] ∧ r.solution ≠ [] :=
  claim_C1_block_roundtrip _ 2 (by decide) (by decide) (by decide)

/-- C3: the exact two-problem response from the spec parses, with requested
count 2, to exactly the two records with trailing `###` stripped. -/
theorem claim_C3_concrete :
    blockParse ("### Problem 1\nStatement: Find x.\nSolution: x=2\n###\n### Problem 2\nStatement: Find y.\nSolution: y=3\n###".toList) 2 =
      [⟨[], "Find x.".toList, "x=2".toList⟩, ⟨[], "Find y.".toList, "y=3".toList⟩] := by
  decide

theorem matchProblemDelim_suffix {s r : List Char} (h : matchProblemDelim s = some r) :
    r <:+ s := by
  unfold matchProblemDelim at h
  split at h
  · exact absurd h (by simp)
  next r1 h1 =>
    split at h
    · exact absurd h (by simp)
    next r2 h2 =>
      split at h
      · exact absurd h (by simp)
      next c r3 h3 =>
        split at h
        · have hr : r = (c :: r3).dropWhile Char.isDigit := by simpa using h.symm
          have s1 : r1 <:+ s := matchCI_suffix h1
          have s2 : dropSpaces r1 <:+ r1 := List.dropWhile_suffix _
          have s3 : r2 <:+ dropSpaces r1 := matchCI_suffix h2
          have s4 : dropSpaces r2 <:+ r2 := List.dropWhile_suffix _
          have s5 : r <:+ c :: r3 := by rw [hr]; exact List.dropWhile_suffix _
          rw [h3] at s4
          exact ((((s5.trans s4).trans s3).trans s2).trans s1)
        · exact absurd h (by simp)

theorem splitDelimF_chars :
    ∀ (f : Nat) (s acc : List Char), ∀ seg ∈ splitDelimAuxF f s acc, ∀ c ∈ seg,
      c ∈ s ∨ c ∈ acc := by
  intro f
  induction f with
  | zero =>
    intro s acc seg hseg c hc
    simp only [splitDelimAuxF, List.mem_singleton] at hseg
    subst hseg
    rcases List.mem_append.mp hc with h | h
    · exact Or.inr (List.mem_reverse.mp h)
    · exact Or.inl h
  | succ f ih =>
    intro s acc seg hseg c hc
    cases s with
    | nil =>
      rw [splitDelimF_nilStr] at hseg
      simp only [List.mem_singleton] at hseg
      subst hseg
      exact Or.inr (List.mem_reverse.mp hc)
    | cons a rest =>
      cases hm : matchProblemDelim (a :: rest) with
      | some r =>
        rw [splitDelimF_hit hm] at hseg
        rcases List.mem_cons.mp hseg with rfl | hseg2
        · exact Or.inr (List.mem_reverse.mp hc)
        · rcases ih r [] seg hseg2 c hc with h | h
          · exact Or.inl ((matchProblemDelim_suffix hm).mem h)
          · simp at h
      | none =>
        rw [splitDelimF_skip hm] at hseg
        rcases ih rest (a :: acc) seg hseg c hc with h | h
        · exact Or.inl (List.mem_cons_of_mem _ h)
        · rcases List.mem_cons.mp h with rfl | h2
          · exact Or.inl (List.mem_cons_self _ _)
          · exact Or.inr h2

theorem splitDelim_chars {txt : List Char} {seg : List Char} (hseg : seg ∈ splitDelim txt) :
    ∀ c ∈ seg, c ∈ txt := by
  intro c hc
  rcases splitDelimF_chars txt.length txt [] seg hseg c hc with h | h
  · exact h
  · simp at h

theorem parseBlocksGo_cons_good {blk : List Char} {rest : List (List Char)} {num : Int}
    {cnt : Nat} (hb : (pyStrip blk).isEmpty = false) :
    parseBlocksGo (blk :: rest) num cnt =
      if num ≤ ((cnt : Int) + 1) then [processBlock (pyStrip blk)]
      else processBlock (pyStrip blk) :: parseBlocksGo rest num (cnt + 1) := by
  show (if (pyStrip blk).isEmpty = true then parseBlocksGo rest num cnt
    else if num ≤ ((cnt : Int) + 1) then [processBlock (pyStrip blk)]
    else processBlock (pyStrip blk) :: parseBlocksGo rest num (cnt + 1)) = _
  rw [if_neg (by simp [hb])]

theorem parseBlocksGo_cons_ws {blk : List Char} {rest : List (List Char)} {num : Int}
    {cnt : Nat} (hb : (pyStrip blk).isEmpty = true) :
    parseBlocksGo (blk :: rest) num cnt = parseBlocksGo rest num cnt := by
  show (if (pyStrip blk).isEmpty = true then parseBlocksGo rest num cnt
    else if num ≤ ((cnt : Int) + 1) then [processBlock (pyStrip blk)]
    else processBlock (pyStrip blk) :: parseBlocksGo rest num (cnt + 1)) = _
  rw [if_pos hb]

theorem parseBlocksGo_length {num : Int} :
    ∀ (blocks : List (List Char)) (cnt : Nat), (cnt : Int) < num →
      (parseBlocksGo blocks num cnt).length =
        min ((blocks.filter (fun b => !(pyStrip b).isEmpty)).length) (num - cnt).toNat := by
  intro blocks
  induction blocks with
  | nil =>
    intro cnt h
    rw [show parseBlocksGo [] num cnt = [] from rfl]
    simp
  | cons blk rest ih =>
    intro cnt h
    by_cases hb : (pyStrip blk).isEmpty = true
    · rw [parseBlocksGo_cons_ws hb, ih cnt h]
      rw [List.filter_cons, if_neg (by simp [hb])]
    · have hb2 : (pyStrip blk).isEmpty = false := Bool.eq_false_iff.mpr hb
      rw [parseBlocksGo_cons_good hb2]
      by_cases hstop : num ≤ (cnt : Int) + 1
      · rw [if_pos hstop, List.filter_cons,
          if_pos (show (!(pyStrip blk).isEmpty) = true from by rw [hb2]; rfl)]
        simp only [List.length_cons, List.length_nil]
        omega
      · rw [if_neg hstop, List.filter_cons,
          if_pos (show (!(pyStrip blk).isEmpty) = true from by rw [hb2]; rfl)]
        simp only [List.length_cons]
        rw [ih (cnt + 1) (by push_cast; omega)]
        push_cast
        omega

theorem goodCount_zero_of_ws {txt : List Char} (h : ∀ c ∈ txt, isPySpace c = true) :
    goodCount txt = 0 := by
  unfold goodCount
  rw [List.length_eq_zero, List.filter_eq_nil_iff]
  intro seg hseg
  have hnil : pyStrip seg = [] :=
    pyStrip_eq_nil_iff.mpr fun c hc => h c (splitDelim_chars hseg c hc)
  simp [hnil]

/-- C5 (counterexample to the claim as stated): with requested count 0 and
input `"x"`, the parser returns one record, so its output length exceeds the
requested count. -/
theorem claim_C5_counterexample :
    ¬(((blockParse ['x'] 0).length : Int) ≤ 0) := by decide

/-- C5 (amended): for every input text and every requested count `num ≥ 1`,
the parser returns at most `num` records, and when the text contains only
`K < num` non-whitespace blocks it returns exactly `K` records. -/
theorem claim_C5_length_bound (txt : List Char) (num : Int) (h : 1 ≤ num) :
    ((blockParse txt num).length : Int) ≤ num ∧
    ((goodCount txt : Int) < num → (blockParse txt num).length = goodCount txt) := by
  unfold blockParse
  by_cases hg : (pyStrip txt).isEmpty = true
  · rw [if_pos hg]
    have h0 : goodCount txt = 0 :=
      goodCount_zero_of_ws (pyStrip_eq_nil_iff.mp (List.isEmpty_iff.mp hg))
    constructor
    · simp; omega
    · intro _
      simp [h0]
  · rw [if_neg hg]
    have hlen := @parseBlocksGo_length num (splitDelim txt) 0 (by omega)
    rw [show ((0 : Nat) : Int) = 0 from rfl] at hlen
    unfold goodCount
    rw [hlen]
    constructor
    · push_cast
      omega
    · intro hlt
      omega

/-- Closed witness for `claim_C5_length_bound` at `"x"` with `num = 2`. -/
theorem claim_C5_length_bound_witness :
    ((blockParse ['x'] 2).length : Int) ≤ 2 ∧
    ((goodCount ['x'] : Int) < 2 → (blockParse ['x'] 2).length = goodCount ['x']) :=
  claim_C5_length_bound ['x'] 2 (by decide)

/-- C6: the parser returns the empty sequence for a non-string argument and
for every whitespace-only (in particular empty) text, whatever the
requested count. -/
theorem claim_C6_empty_input (num : Int) :
    blockParseAny none num = [] ∧
    ∀ txt, (∀ c ∈ txt, isPySpace c = true) → blockParseAny (some txt) num = [] := by
  constructor
  · rfl
  · intro txt h
    show blockParse txt num = []
    unfold blockParse
    rw [if_pos (by rw [List.isEmpty_iff]; exact pyStrip_eq_nil_iff.mpr h)]

/-- Closed witness for `claim_C6_empty_input` at `num = 5` and the
whitespace-only text `" \n"`. -/
theorem claim_C6_empty_input_witness :
    blockParseAny none 5 = [] ∧ blockParseAny (some [' ', '\n']) 5 = [] :=
  ⟨(claim_C6_empty_input 5).1, (claim_C6_empty_input 5).2 [' ', '\n'] (by decide)⟩

theorem parseBlocksGo_first_good {num : Int} (hnum : num ≤ 0) :
    ∀ (blocks : List (List Char)) (blk : List Char),
      blocks.find? (fun b => !(pyStrip b).isEmpty) = some blk → ∀ cnt : Nat,
      parseBlocksGo blocks num cnt = [processBlock (pyStrip blk)] := by
  intro blocks
  induction blocks with
  | nil => intro blk hf cnt; simp at hf
  | cons b rest ih =>
    intro blk hf cnt
    by_cases hb : (pyStrip b).isEmpty = true
    · rw [List.find?_cons_of_neg _ (by simp [hb])] at hf
      rw [parseBlocksGo_cons_ws hb]
      exact ih blk hf cnt
    · have hb2 : (pyStrip b).isEmpty = false := Bool.eq_false_iff.mpr hb
      rw [List.find?_cons_of_pos _ (by simp [hb2])] at hf
      simp only [Option.some.injEq] at hf
      subst hf
      rw [parseBlocksGo_cons_good hb2, if_pos (by omega)]

/-- C10: the parser appends a record before checking the requested count, so
for every `num ≤ 0` and every text with at least one non-whitespace block it
returns exactly one record, built from the first such block — exceeding the
requested count. -/
theorem claim_C10_nonpositive_count (txt : List Char) (num : Int) (hnum : num ≤ 0)
    (blk : List Char)
    (hfind : (splitDelim txt).find? (fun b => !(pyStrip b).isEmpty) = some blk) :
    blockParse txt num = [processBlock (pyStrip blk)] := by
  unfold blockParse
  rw [if_neg ?hguard]
  case hguard =>
    intro hcon
    have hmem := List.mem_of_find?_eq_some hfind
    have hpred := List.find?_some hfind
    simp only [Bool.not_eq_true, Bool.not_eq_false] at hpred
    have hne : pyStrip blk ≠ [] := by
      intro hnil
      rw [hnil] at hpred
      simp at hpred
    obtain ⟨c, hc, hcs⟩ : ∃ c ∈ blk, isPySpace c = false := by
      by_contra hall
      push_neg at hall
      exact hne (pyStrip_eq_nil_iff.mpr fun c hc => by
        cases hx : isPySpace c
        · exact absurd hx (by simpa using hall c hc)
        · rfl)
    have : isPySpace c = true :=
      pyStrip_eq_nil_iff.mp (List.isEmpty_iff.mp hcon) c (splitDelim_chars hmem c hc)
    rw [this] at hcs
    exact absurd hcs (by simp)
  exact parseBlocksGo_first_good hnum (splitDelim txt) blk hfind 0

/-- Closed witness for `claim_C10_nonpositive_count` at `"hi"` with
`num = 0`. -/
theorem claim_C10_nonpositive_count_witness :
    blockParse ['h', 'i'] 0 = [processBlock (pyStrip ['h', 'i'])] :=
  claim_C10_nonpositive_count ['h', 'i'] 0 (by decide) ['h', 'i'] (by decide)

theorem callGo_zero (oc : Nat → Outcome) (num : Int) (calls : Nat) (lastRaw : List Char) :
    callGo oc num 0 calls lastRaw =
      (if lastRaw.isEmpty then [apiErrorRec] else blockParse lastRaw num, calls) := rfl

theorem callGo_step_httpError {oc : Nat → Outcome} {num : Int} {k calls : Nat}
    {lastRaw : List Char} (h : oc calls = .httpError) :
    callGo oc num (k + 1) calls lastRaw = callGo oc num k (calls + 1) lastRaw := by
  show (match oc calls with
    | .httpError => callGo oc num k (calls + 1) lastRaw
    | .exc => callGo oc num k (calls + 1) lastRaw
    | .ok raw =>
      let problems := blockParse raw num
      if num ≤ (problems.length : Int) then (problems, calls + 1)
      else callGo oc num k (calls + 1) raw) = _
  rw [h]

theorem callGo_step_exc {oc : Nat → Outcome} {num : Int} {k calls : Nat}
    {lastRaw : List Char} (h : oc calls = .exc) :
    callGo oc num (k + 1) calls lastRaw = callGo oc num k (calls + 1) lastRaw := by
  show (match oc calls with
    | .httpError => callGo oc num k (calls + 1) lastRaw
    | .exc => callGo oc num k (calls + 1) lastRaw
    | .ok raw =>
      let problems := blockParse raw num
      if num ≤ (problems.length : Int) then (problems, calls + 1)
      else callGo oc num k (calls + 1) raw) = _
  rw [h]

theorem callGo_step_ok {oc : Nat → Outcome} {num : Int} {k calls : Nat}
    {lastRaw raw : List Char} (h : oc calls = .ok raw) :
    callGo oc num (k + 1) calls lastRaw =
      if num ≤ ((blockParse raw num).length : Int) then (blockParse raw num, calls + 1)
      else callGo oc num k (calls + 1) raw := by
  show (match oc calls with
    | .httpError => callGo oc num k (calls + 1) lastRaw
    | .exc => callGo oc num k (calls + 1) lastRaw
    | .ok raw =>
      let problems := blockParse raw num
      if num ≤ (problems.length : Int) then (problems, calls + 1)
      else callGo oc num k (calls + 1) raw) = _
  rw [h]

theorem callGo_calls_le (oc : Nat → Outcome) (num : Int) :
    ∀ (k calls : Nat) (lastRaw : List Char), (callGo oc num k calls lastRaw).2 ≤ calls + k := by
  intro k
  induction k with
  | zero =>
    intro calls lastRaw
    rw [callGo_zero]
    simp
  | succ k ih =>
    intro calls lastRaw
    cases hoc : oc calls with
    | httpError =>
      rw [callGo_step_httpError hoc]
      have := ih (calls + 1) lastRaw
      omega
    | exc =>
      rw [callGo_step_exc hoc]
      have := ih (calls + 1) lastRaw
      omega
    | ok raw =>
      rw [callGo_step_ok hoc]
      by_cases hp : num ≤ ((blockParse raw num).length : Int)
      · rw [if_pos hp]
        omega
      · rw [if_neg hp]
        have := ih (calls + 1) raw
        omega

theorem callGo_allfail (oc : Nat → Outcome) (num : Int) :
    ∀ (k calls : Nat), (∀ i, calls ≤ i → i < calls + k → ∀ raw, oc i ≠ .ok raw) →
      callGo oc num k calls [] = ([apiErrorRec], calls + k) := by
  intro k
  induction k with
  | zero => intro calls _; rw [callGo_zero]; rfl
  | succ k ih =>
    intro calls h
    cases hoc : oc calls with
    | httpError =>
      rw [callGo_step_httpError hoc, ih (calls + 1) (fun i hi1 hi2 raw => h i (by omega)
        (by omega) raw)]
      rw [show calls + 1 + k = calls + (k + 1) from by omega]
    | exc =>
      rw [callGo_step_exc hoc, ih (calls + 1) (fun i hi1 hi2 raw => h i (by omega)
        (by omega) raw)]
      rw [show calls + 1 + k = calls + (k + 1) from by omega]
    | ok raw =>
      exact absurd hoc (h calls (by omega) (by omega) raw)

/-- C2: the retry wrapper catches every remote-call failure locally (the
embedding is a total function of the attempt outcomes), and when no attempt
ever yields response text it returns the single-element list holding the
fixed synthetic error record — not an empty list and not an exception. -/
theorem claim_C2_total_failure (oc : Nat → Outcome) (num : Int) (maxAttempts : Nat)
    (h : ∀ i < maxAttempts, ∀ raw, oc i ≠ .ok raw) :
    (callHackaiGenerate oc num maxAttempts).1 = [apiErrorRec] ∧
    (callHackaiGenerate oc num maxAttempts).1.length = 1 := by
  unfold callHackaiGenerate
  rw [callGo_allfail oc num maxAttempts 0 (fun i _ hi raw => h i (by omega) raw)]
  exact ⟨rfl, rfl⟩

/-- Closed witness for `claim_C2_total_failure`: every call returns an HTTP
error. -/
theorem claim_C2_total_failure_witness :
    (callHackaiGenerate (fun _ => .httpError) 3 3).1 = [apiErrorRec] ∧
    (callHackaiGenerate (fun _ => .httpError) 3 3).1.length = 1 :=
  claim_C2_total_failure (fun _ => .httpError) 3 3
    (fun _ _ _ hcon => Outcome.noConfusion hcon)

/-- C4: with the default 3 attempts the wrapper makes at most 3 remote
calls; and if the calls fail on attempts 1 and 2 but attempt 3 returns text
parsing to at least `num` records, the wrapper returns exactly those parsed
records after its 3rd call, making no 4th call. -/
theorem claim_C4_third_attempt (oc : Nat → Outcome) (num : Int) (raw : List Char)
    (h0 : oc 0 = .httpError ∨ oc 0 = .exc) (h1 : oc 1 = .httpError ∨ oc 1 = .exc)
    (h2 : oc 2 = .ok raw) (hp : num ≤ ((blockParse raw num).length : Int)) :
    callHackaiGenerate oc num 3 = (blockParse raw num, 3) ∧
    ∀ (oc2 : Nat → Outcome) (num2 : Int), (callHackaiGenerate oc2 num2 3).2 ≤ 3 := by
  constructor
  · unfold callHackaiGenerate
    have s1 : callGo oc num 3 0 [] = callGo oc num 2 1 [] := by
      rcases h0 with h | h
      · exact callGo_step_httpError h
      · exact callGo_step_exc h
    have s2 : callGo oc num 2 1 [] = callGo oc num 1 2 [] := by
      rcases h1 with h | h
      · exact callGo_step_httpError h
      · exact callGo_step_exc h
    rw [s1, s2, callGo_step_ok h2, if_pos hp]
  · intro oc2 num2
    exact callGo_calls_le oc2 num2 3 0 []

/-- Closed witness for `claim_C4_third_attempt`: two failures then a
well-formed one-problem response, requested count 1. -/
theorem claim_C4_third_attempt_witness :
    callHackaiGenerate
        (fun i => if i = 2
          then .ok "### Problem 1\nStatement: a\nSolution: b\n###".toList
          else .httpError) 1 3 =
      (blockParse "### Problem 1\nStatement: a\nSolution: b\n###".toList 1, 3) ∧
    ∀ (oc2 : Nat → Outcome) (num2 : Int), (callHackaiGenerate oc2 num2 3).2 ≤ 3 :=
  claim_C4_third_attempt _ 1 _ (Or.inl rfl) (Or.inl rfl) rfl (by decide)

theorem expectColon_suffix {r0 r2 : List Char} (h : expectColon r0 = some r2) : r2 <:+ r0 := by
  unfold expectColon at h
  split at h
  next r2a heq =>
    simp only [Option.some.injEq] at h
    subst h
    have s1 : dropSpaces r2a <:+ r2a := List.dropWhile_suffix _
    have s2 : r2a <:+ ':' :: r2a := List.suffix_cons _ _
    have s3 : dropSpaces r0 <:+ r0 := List.dropWhile_suffix _
    rw [heq] at s3
    exact (s1.trans s2).trans s3
  · exact absurd h (by simp)

theorem matchStmtAt_suffix {s r : List Char} (h : matchStmtAt s = some r) : r <:+ s := by
  unfold matchStmtAt at h
  split at h
  next r1 hci => exact (expectColon_suffix h).trans (matchCI_suffix hci)
  · exact absurd h (by simp)

theorem matchSolAt_suffix {s r : List Char} (h : matchSolAt s = some r) : r <:+ s := by
  unfold matchSolAt at h
  split at h
  next r1 hci => exact (expectColon_suffix h).trans (matchCI_suffix hci)
  · exact absurd h (by simp)

theorem matchLabel_suffix {s : List Char} {k : LKey} {r : List Char}
    (h : matchLabel s = some (k, r)) : r <:+ s := by
  unfold matchLabel at h
  split at h
  next r0 hst =>
    simp only [Option.some.injEq, Prod.mk.injEq] at h
    obtain ⟨-, rfl⟩ := h
    exact matchStmtAt_suffix hst
  · split at h
    next r0 hso =>
      simp only [Option.some.injEq, Prod.mk.injEq] at h
      obtain ⟨-, rfl⟩ := h
      exact matchSolAt_suffix hso
    · exact absurd h (by simp)

theorem findSolStart_cons_none {c : Char} {rest : List Char}
    (h : findSolStart (c :: rest) = none) :
    matchSolAt (c :: rest) = none ∧ findSolStart rest = none := by
  unfold findSolStart at h
  by_cases hm : (matchSolAt (c :: rest)).isSome = true
  · rw [if_pos hm] at h
    exact absurd h (by simp)
  · rw [if_neg hm] at h
    refine ⟨?_, by simpa using h⟩
    cases hx : matchSolAt (c :: rest)
    · rfl
    · rw [hx] at hm
      simp at hm

theorem findStmtStart_cons_none {c : Char} {rest : List Char}
    (h : findStmtStart (c :: rest) = none) :
    matchStmtAt (c :: rest) = none ∧ findStmtStart rest = none := by
  unfold findStmtStart at h
  by_cases hm : (matchStmtAt (c :: rest)).isSome = true
  · rw [if_pos hm] at h
    exact absurd h (by simp)
  · rw [if_neg hm] at h
    refine ⟨?_, by simpa using h⟩
    cases hx : matchStmtAt (c :: rest)
    · rfl
    · rw [hx] at hm
      simp at hm

theorem matchSolAt_none_of_findSolStart {b : List Char} :
    findSolStart b = none → ∀ u, u <:+ b → matchSolAt u = none := by
  induction b with
  | nil =>
    intro _ u hu
    rw [List.suffix_nil.mp hu]
    rfl
  | cons c rest ih =>
    intro h u hu
    obtain ⟨h1, h2⟩ := findSolStart_cons_none h
    rcases List.suffix_cons_iff.mp hu with rfl | hu2
    · exact h1
    · exact ih h2 u hu2

theorem matchStmtAt_none_of_findStmtStart {b : List Char} :
    findStmtStart b = none → ∀ u, u <:+ b → matchStmtAt u = none := by
  induction b with
  | nil =>
    intro _ u hu
    rw [List.suffix_nil.mp hu]
    rfl
  | cons c rest ih =>
    intro h u hu
    obtain ⟨h1, h2⟩ := findStmtStart_cons_none h
    rcases List.suffix_cons_iff.mp hu with rfl | hu2
    · exact h1
    · exact ih h2 u hu2

theorem matchLabel_no_sol {u : List Char} {k : LKey} {r : List Char}
    (hsol : matchSolAt u = none) (h : matchLabel u = some (k, r)) : k = LKey.stmt := by
  unfold matchLabel at h
  split at h
  · simp only [Option.some.injEq, Prod.mk.injEq] at h
    exact h.1.symm
  · split at h
    next r0 hs =>
      rw [hsol] at hs
      exact absurd hs (by simp)
    · exact absurd h (by simp)

theorem matchLabel_no_stmt {u : List Char} {k : LKey} {r : List Char}
    (hstmt : matchStmtAt u = none) (h : matchLabel u = some (k, r)) : k = LKey.sol := by
  unfold matchLabel at h
  split at h
  next r0 hs =>
    rw [hstmt] at hs
    exact absurd hs (by simp)
  · split at h
    · simp only [Option.some.injEq, Prod.mk.injEq] at h
      exact h.1.symm
    · exact absurd h (by simp)

theorem splitLabelsF_keys (P : LKey → Prop) :
    ∀ (f : Nat) (s acc : List Char),
      (∀ u, u <:+ s → ∀ k r, matchLabel u = some (k, r) → P k) →
      ∀ kp ∈ (splitLabelsAuxF f s acc).2, P kp.1 := by
  intro f
  induction f with
  | zero =>
    intro s acc _ kp hkp
    simp [splitLabelsAuxF] at hkp
  | succ f ih =>
    intro s acc h kp hkp
    cases s with
    | nil =>
      rw [splitLabelsF_nilStr] at hkp
      simp at hkp
    | cons c rest =>
      cases hm : matchLabel (c :: rest) with
      | none =>
        rw [splitLabelsF_skip hm] at hkp
        exact ih rest (c :: acc)
          (fun u hu k r hk => h u (hu.trans (List.suffix_cons c rest)) k r hk) kp hkp
      | some kr =>
        obtain ⟨k, r⟩ := kr
        rw [splitLabelsF_hit hm] at hkp
        rcases List.mem_cons.mp hkp with rfl | hkp2
        · exact h _ (List.suffix_refl _) k r hm
        · exact ih r []
            (fun u hu k2 r2 hk => h u (hu.trans (matchLabel_suffix hm)) k2 r2 hk) kp hkp2

theorem applyPairs_snd_of_no_sol :
    ∀ (pairs : List (LKey × List Char)) (st so : List Char),
      (∀ kp ∈ pairs, kp.1 = LKey.stmt) → (applyPairs pairs (st, so)).2 = so := by
  intro pairs
  induction pairs with
  | nil => intro st so _; rfl
  | cons kp rest ih =>
    intro st so h
    obtain ⟨k, v0⟩ := kp
    have hk : k = LKey.stmt := h _ (List.mem_cons_self _ _)
    subst hk
    rw [applyPairs_stmt]
    exact ih _ so fun x hx => h x (List.mem_cons_of_mem _ hx)

theorem applyPairs_fst_of_no_stmt :
    ∀ (pairs : List (LKey × List Char)) (st so : List Char),
      (∀ kp ∈ pairs, kp.1 = LKey.sol) → (applyPairs pairs (st, so)).1 = st := by
  intro pairs
  induction pairs with
  | nil => intro st so _; rfl
  | cons kp rest ih =>
    intro st so h
    obtain ⟨k, v0⟩ := kp
    have hk : k = LKey.sol := h _ (List.mem_cons_self _ _)
    subst hk
    rw [applyPairs_sol]
    exact ih st _ fun x hx => h x (List.mem_cons_of_mem _ hx)

theorem solAfter_none_of_matchSolAt {b : List Char} :
    (∀ u, u <:+ b → matchSolAt u = none) → solAfter b = none := by
  induction b with
  | nil => intro _; rfl
  | cons c rest ih =>
    intro h
    unfold solAfter
    rw [h _ (List.suffix_refl _)]
    exact ih fun u hu => h u (hu.trans (List.suffix_cons c rest))

/-- C7 (counterexample to the claim as stated): the block `"Statement: ###"`
is non-whitespace, has a `Statement:` label and no `Solution:` label, yet
the parser's record has an EMPTY statement — the trailing-`###` removal
erases it. -/
theorem claim_C7_counterexample :
    pyStrip "Statement: ###".toList ≠ [] ∧
    (findStmtStart (pyStrip "Statement: ###".toList)).isSome = true ∧
    findSolStart (pyStrip "Statement: ###".toList) = none ∧
    blockParse "Statement: ###".toList 1 = [⟨[], [], []⟩] := by decide

/-- C7 (amended): a non-whitespace block that contains a `Statement:` label
and no `Solution:` label yields a record with an empty solution; the
statement is the block's statement text after cleanup and may be empty
(`claim_C7_counterexample`), so the original non-empty-statement part is
dropped. -/
theorem claim_C7_no_solution_label (b : List Char) (hstrip : pyStrip b = b) (hne : b ≠ [])
    (hstmt : (findStmtStart b).isSome = true) (hsol : findSolStart b = none) :
    (processBlock b).solution = [] := by
  have hall := matchSolAt_none_of_findSolStart hsol
  have hkeys : ∀ kp ∈ (splitLabels b).2, kp.1 = LKey.stmt := by
    apply splitLabelsF_keys (fun k => k = LKey.stmt) b.length b []
    intro u hu k r hk
    exact matchLabel_no_sol (hall u hu) hk
  have hso : (loopResult b).2 = [] := by
    unfold loopResult
    exact applyPairs_snd_of_no_sol _ [] [] hkeys
  show pyStrip (pySubHashEnd (solStage1 b)) = []
  have hsol1 : solStage1 b = [] := by
    unfold solStage1
    rw [hso]
    show (if ([] : List Char).isEmpty = true then
      (match solAfter b with
        | some r => pyStrip r
        | none => []) else []) = []
    rw [if_pos (show ([] : List Char).isEmpty = true from rfl),
      solAfter_none_of_matchSolAt hall]
  rw [hsol1]
  rfl

/-- Closed witness for `claim_C7_no_solution_label` at block
`"Statement: x"`. -/
theorem claim_C7_no_solution_label_witness :
    (processBlock "Statement: x".toList).solution = [] :=
  claim_C7_no_solution_label "Statement: x".toList (by decide) (by decide) (by decide)
    (by decide)

/-- C8 (counterexample to the claim as stated): for the block
`"answer: 5\nSolution: y"` — which has no `Statement:` label — the block's
leading text up to the `Solution:` label is `"answer: 5"`, yet the record's
statement is empty: the `answer:`-line filter removed it. -/
theorem claim_C8_counterexample :
    findStmtStart (pyStrip "answer: 5\nSolution: y".toList) = none ∧
    pyStrip ((pyStrip "answer: 5\nSolution: y".toList).take
      ((findSolStart (pyStrip "answer: 5\nSolution: y".toList)).getD
        (pyStrip "answer: 5\nSolution: y".toList).length)) = "answer: 5".toList ∧
    blockParse "answer: 5\nSolution: y".toList 1 = [⟨[], [], ['y']⟩] ∧
    ("answer: 5".toList : List Char) ≠ [] := by decide

/-- C8 (amended): a non-whitespace block with no `Statement:` label yields a
record whose statement is the block's leading text up to (excluding) the
`Solution:` label — or the whole block when that label is absent — after
the parser's cleanup steps (trailing-`###` removal, `answer:`-line filter,
leading-`Problem <number>` removal, stripping). -/
theorem claim_C8_no_statement_label (b : List Char) (hstrip : pyStrip b = b) (hne : b ≠ [])
    (hstmt : findStmtStart b = none) :
    (processBlock b).statement =
      cleanupStatement (pyStrip (b.take ((findSolStart b).getD b.length))) := by
  have hall := matchStmtAt_none_of_findStmtStart hstmt
  have hkeys : ∀ kp ∈ (splitLabels b).2, kp.1 = LKey.sol := by
    apply splitLabelsF_keys (fun k => k = LKey.sol) b.length b []
    intro u hu k r hk
    exact matchLabel_no_stmt (hall u hu) hk
  have hst : (loopResult b).1 = [] := by
    unfold loopResult
    exact applyPairs_fst_of_no_stmt _ [] [] hkeys
  have h1 : stmtStage1 b = pyStrip (b.take ((findSolStart b).getD b.length)) := by
    unfold stmtStage1
    rw [hst]
    rfl
  simp only [processBlock]
  have h2 : finalStatement b = cleanupStatement (stmtStage1 b) := by
    simp only [finalStatement, stmtStage3, keptLines, stmtStage2, cleanupStatement]
  rw [h2, h1]

/-- Closed witness for `claim_C8_no_statement_label` at block `"hi"`. -/
theorem claim_C8_no_statement_label_witness :
    (processBlock "hi".toList).statement =
      cleanupStatement (pyStrip ("hi".toList.take
        ((findSolStart "hi".toList).getD "hi".toList.length))) :=
  claim_C8_no_statement_label "hi".toList (by decide) (by decide) (by decide)

theorem pySplitlines_breakfree_elem :
    ∀ s : List Char, ∀ ln ∈ pySplitlines s, ∀ c ∈ ln, isLineBreak c = false := by
  intro s
  induction s using pySplitlines.induct
  next =>
    intro ln hln
    have he : pySplitlines ([] : List Char) = [] := rfl
    rw [he] at hln
    exact absurd hln (List.not_mem_nil ln)
  next c hc =>
    intro ln hln
    have he : pySplitlines [c] = [[]] := by
      show (if isLineBreak c then [[]] else [[c]]) = [[]]
      rw [if_pos hc]
    rw [he] at hln
    have hn : ln = [] := by simpa using hln
    subst hn
    intro d hd
    exact absurd hd (List.not_mem_nil d)
  next c hc =>
    intro ln hln
    have he : pySplitlines [c] = [[c]] := by
      show (if isLineBreak c then [[]] else [[c]]) = [[c]]
      rw [if_neg hc]
    rw [he] at hln
    have hn : ln = [c] := by simpa using hln
    subst hn
    intro d hd
    have hd2 : d = c := by simpa using hd
    subst hd2
    simpa using hc
  next c1 c2 rest hpair ih =>
    intro ln hln
    have he : pySplitlines (c1 :: c2 :: rest) = [] :: pySplitlines rest := by
      show (if c1 = '\r' && c2 = '\n' then [] :: pySplitlines rest
        else if isLineBreak c1 then [] :: pySplitlines (c2 :: rest)
        else consHead c1 (pySplitlines (c2 :: rest))) = [] :: pySplitlines rest
      rw [if_pos hpair]
    rw [he] at hln
    rcases List.mem_cons.mp hln with h | h
    · subst h
      intro d hd
      exact absurd hd (List.not_mem_nil d)
    · exact ih ln h
  next c1 c2 rest hpair hb ih =>
    intro ln hln
    rw [pySplitlines_cons₂_nl (by simpa [Bool.and_eq_true, decide_eq_true_eq] using hpair)
      hb] at hln
    rcases List.mem_cons.mp hln with h | h
    · subst h
      intro d hd
      exact absurd hd (List.not_mem_nil d)
    · exact ih ln h
  next c1 c2 rest hpair hb ih =>
    intro ln hln
    have hb' : isLineBreak c1 = false := by simpa using hb
    rw [pySplitlines_cons₂ (by simpa [Bool.and_eq_true, decide_eq_true_eq] using hpair)
      hb'] at hln
    cases hsp : pySplitlines (c2 :: rest) with
    | nil =>
      rw [hsp] at hln
      have hn : ln = [c1] := by simpa [consHead] using hln
      subst hn
      intro d hd
      have hd2 : d = c1 := by simpa using hd
      subst hd2
      exact hb'
    | cons l ls =>
      rw [hsp] at hln
      have hln2 : ln = c1 :: l ∨ ln ∈ ls := by simpa [consHead] using hln
      rcases hln2 with h | h
      · subst h
        intro d hd
        rcases List.mem_cons.mp hd with h2 | h2
        · subst h2
          exact hb'
        · exact ih l (by rw [hsp]; exact List.mem_cons_self l ls) d h2
      · exact ih ln (by rw [hsp]; exact List.mem_cons_of_mem l h)

theorem pySplitlines_breakfree_single :
    ∀ l : List Char, (∀ c ∈ l, isLineBreak c = false) → l ≠ [] → pySplitlines l = [l] := by
  intro l
  induction l with
  | nil => intro _ h; exact absurd rfl h
  | cons c l' ih =>
    intro hbf _
    have hc : isLineBreak c = false := hbf c (List.mem_cons_self c l')
    cases l' with
    | nil =>
      show (if isLineBreak c then [[]] else [[c]]) = [[c]]
      rw [if_neg (by simp [hc])]
    | cons d l'' =>
      have hd : pySplitlines (d :: l'') = [d :: l''] :=
        ih (fun x hx => hbf x (List.mem_cons_of_mem c hx)) (by simp)
      have hnp : ¬(c = '\r' ∧ d = '\n') := by
        intro hcd
        rw [hcd.1] at hc
        exact absurd hc (by decide)
      rw [pySplitlines_cons₂ hnp hc, hd]
      rfl

theorem pySplitlines_breakfree_append_nl :
    ∀ l t : List Char, (∀ c ∈ l, isLineBreak c = false) →
      pySplitlines (l ++ '\n' :: t) = l :: pySplitlines t := by
  intro l
  induction l with
  | nil =>
    intro t _
    cases t with
    | nil => decide
    | cons d t' =>
      simp only [List.nil_append]
      rw [pySplitlines_cons₂_nl (fun hx => absurd hx.1 (by decide)) (by decide)]
  | cons c l' ih =>
    intro t hbf
    have hc : isLineBreak c = false := hbf c (List.mem_cons_self c l')
    have hih := ih t (fun x hx => hbf x (List.mem_cons_of_mem c hx))
    simp only [List.cons_append]
    cases l' with
    | nil =>
      simp only [List.nil_append] at hih ⊢
      have hnp : ¬(c = '\r' ∧ '\n' = '\n') := by
        intro hcd
        rw [hcd.1] at hc
        exact absurd hc (by decide)
      rw [pySplitlines_cons₂ hnp hc, hih]
      rfl
    | cons d l'' =>
      simp only [List.cons_append] at hih ⊢
      have hnp : ¬(c = '\r' ∧ d = '\n') := by
        intro hcd
        rw [hcd.1] at hc
        exact absurd hc (by decide)
      rw [pySplitlines_cons₂ hnp hc, hih]
      rfl

theorem mem_pySplitlines_joinLines :
    ∀ L : List (List Char), (∀ l ∈ L, ∀ c ∈ l, isLineBreak c = false) →
      ∀ ln ∈ pySplitlines (joinLines L), ln ∈ L := by
  intro L
  induction L with
  | nil =>
    intro _ ln hln
    have he : pySplitlines (joinLines []) = [] := rfl
    rw [he] at hln
    exact absurd hln (List.not_mem_nil ln)
  | cons l1 L' ih =>
    intro hbf ln hln
    cases L' with
    | nil =>
      have hje : joinLines [l1] = l1 := rfl
      rw [hje] at hln
      by_cases h1 : l1 = []
      · subst h1
        have he : pySplitlines ([] : List Char) = [] := rfl
        rw [he] at hln
        exact absurd hln (List.not_mem_nil ln)
      · rw [pySplitlines_breakfree_single l1 (hbf l1 (List.mem_cons_self l1 [])) h1] at hln
        have hn : ln = l1 := by simpa using hln
        rw [hn]
        exact List.mem_cons_self l1 []
    | cons l2 L'' =>
      have hje : joinLines (l1 :: l2 :: L'') = l1 ++ '\n' :: joinLines (l2 :: L'') := rfl
      rw [hje, pySplitlines_breakfree_append_nl l1 (joinLines (l2 :: L''))
        (hbf l1 (List.mem_cons_self l1 (l2 :: L'')))] at hln
      rcases List.mem_cons.mp hln with h | h
      · rw [h]
        exact List.mem_cons_self l1 (l2 :: L'')
      · exact List.mem_cons_of_mem l1
          (ih (fun l hl => hbf l (List.mem_cons_of_mem l1 hl)) ln h)

/-- C9 (counterexample to the claim as stated): on the well-formed input
`"### Problem 1\nStatement: Problem 1 answer: 5\nSolution: x\n###"` the
parser returns a record whose final statement is `"answer: 5"` — a line
beginning with `answer:`.  The `answer:`-line filter runs BEFORE the
leading-`Problem <number>` removal of line 155, which here re-exposes an
`answer:` line that the filter could not see. -/
theorem claim_C9_counterexample :
    blockParse "### Problem 1\nStatement: Problem 1 answer: 5\nSolution: x\n###".toList 1 =
      [⟨[], "answer: 5".toList, ['x']⟩] ∧
    (pySplitlines "answer: 5".toList).any isAnswerLine = true := by decide

/-- C9 (amended): the `answer:`-line filter itself is sound — at the point it
runs (lines 151-154, after the join and before the final strip and the
leading-`Problem <number>` removal), no line of the statement text begins
with `answer:` (case-insensitive).  The later cleanup steps of lines 154-155
can re-introduce such a line (see the counterexample). -/
theorem claim_C9_answer_filter (b ln : List Char)
    (h : ln ∈ pySplitlines (joinLines (keptLines b))) :
    isAnswerLine ln = false := by
  have hbf : ∀ l ∈ keptLines b, ∀ c ∈ l, isLineBreak c = false := by
    intro l hl
    simp only [keptLines] at hl
    exact pySplitlines_breakfree_elem (stmtStage2 b) l (List.mem_filter.mp hl).1
  have hmem : ln ∈ keptLines b := mem_pySplitlines_joinLines (keptLines b) hbf ln h
  simp only [keptLines] at hmem
  have hp := (List.mem_filter.mp hmem).2
  simpa using hp

/-- Closed witness for `claim_C9_answer_filter` at block `"hi"`. -/
theorem claim_C9_answer_filter_witness :
    isAnswerLine "hi".toList = false :=
  claim_C9_answer_filter "hi".toList "hi".toList (by decide)
